import Mathlib

/-!
Verification development for the sparse-matrix algebra layer of a
spectral-Galerkin solver (file `shenfun/matrixbase.py`).

The embedding uses exact rationals (`ℚ`) for all numeric data.  A Python
diagonal value (a numpy 1-d array, or a scalar broadcast over the whole
diagonal) is modelled as a `List ℚ`; a scalar diagonal corresponds to the
constant list of the appropriate length (numpy broadcasting gives both the
same elementwise semantics).  Dictionaries are modelled as association
lists in insertion order, matching Python `dict` iteration order; keys of
a dict are pairwise distinct, which well-formedness predicates record
where a proof needs it.  Numpy tolerance comparisons such as
`np.linalg.norm(x) < 1e-8` are modelled without the square root as
`normSq x < (1e-8)^2`, which is equivalent for real inputs.  Exceptions
(`KeyError`, `AssertionError`, `RuntimeError`, division by zero) are
modelled with `Option`/`Except`: `none`/`.error` is a raise.
-/

/-- Absolute tolerance 1e-8 used by `__eq__`, `__div__`, `issymmetric` and
`incorporate_scale` in the source. -/
def tol8 : ℚ := 1 / 100000000

/-- Tolerance 1e-10 used by `extract_diagonal_matrix`. -/
def tol10 : ℚ := 1 / 10000000000

/-- Near-zero scale threshold 1e-15 used by `__add__` / `__sub__`. -/
def tol15 : ℚ := 1 / 1000000000000000

/-- A stored diagonal: the values along one diagonal offset. -/
abbrev Diag := List ℚ

/-- Shallow embedding of `SparseMatrix` (matrixbase.py, class SparseMatrix):
`storage` is the offset → diagonal dict (`self._storage`), `shape` the
(rows, cols) pair, `scale` the lazy scalar multiplier.  The `bc` flag
records whether the matrix plays the boundary-condition role
(`is_bc_matrix`): the base class always answers `False`; for the
`SpectralMatrix` subclass the answer is a fixed property of the trial
basis (an external collaborator), recorded here as a plain field.  Base
class constructions (`SparseMatrix(...)` calls in the source) set it to
`false`. -/
structure SparseMatrix where
  storage : List (ℤ × Diag)
  shape : ℕ × ℕ
  scale : ℚ
  bc : Bool := false
  deriving DecidableEq, Inhabited

/-- Association-list lookup, first match wins (Python dict lookup). -/
def lookAssoc : List (ℤ × Diag) → ℤ → Option Diag
  | [], _ => none
  | p :: rest, k => if p.1 = k then some p.2 else lookAssoc rest k

/-- Dict assignment `st[k] = v`: overwrite in place if the key exists,
append otherwise (Python dict update keeps insertion order). -/
def setKey : List (ℤ × Diag) → ℤ → Diag → List (ℤ × Diag)
  | [], k, v => [(k, v)]
  | p :: rest, k, v => if p.1 = k then (k, v) :: rest else p :: setKey rest k v

namespace SparseMatrix

/-- Keys of the diagonal dict, in insertion order (`self.keys()`). -/
def keys (m : SparseMatrix) : List ℤ := m.storage.map Prod.fst

/-- Dict lookup `self._storage[key]` (`__getitem__`). -/
def lookup (m : SparseMatrix) (k : ℤ) : Option Diag := lookAssoc m.storage k

/-- Unscaled dense entry at row `i`, column `j`: the entry lies on diagonal
`j - i`; position `min i j` indexes into the stored diagonal array (for
offset `k ≥ 0` the diagonal holds entries `(t, t+k)`, for `k < 0` entries
`(t-k, t)`).  Entries off every stored diagonal are zero. -/
def denseU (m : SparseMatrix) (i j : ℕ) : ℚ :=
  match m.lookup ((j : ℤ) - (i : ℤ)) with
  | none => 0
  | some d => d.getD (min i j) 0

/-- Data array of `self.diags('csr', False)`: the nonzero entries of the
unscaled matrix in row-major order.  Scipy's dia → csr conversion masks
out explicitly stored zeros, so only nonzero entries appear. -/
def csrData (m : SparseMatrix) : List ℚ :=
  (List.range m.shape.1).flatMap fun i =>
    (List.range m.shape.2).filterMap fun j =>
      let v := m.denseU i j
      if v = 0 then none else some v

/-- Squared 2-norm of a list of rationals. -/
def normSq (l : List ℚ) : ℚ := (l.map fun x => x * x).sum

/-- Structural equality `SparseMatrix.__eq__`: equal shapes, equal key sets
(`same_keys` compares `hash(frozenset(keys))`; we model it as equality of
the key sets), equal csr-data lengths, and csr data within 1e-8 in 2-norm
(compared here with squares, avoiding the square root). -/
def sparseEq (a b : SparseMatrix) : Bool :=
  decide (a.shape = b.shape) &&
  decide (a.keys.toFinset = b.keys.toFinset) &&
  (let d0 := a.csrData
   let a0 := b.csrData
   decide (d0.length = a0.length) &&
   decide (normSq (List.zipWith (· - ·) d0 a0) < tol8 * tol8))

/-- Scalar multiplication `__mul__` with a `Number`: a copy with the scale
multiplied; the diagonal dict is unchanged. -/
def mulScalar (m : SparseMatrix) (y : ℚ) : SparseMatrix :=
  { m with scale := m.scale * y }

/-- Scalar division `__div__` with a `Number`: `assert abs(y) > 1e-8`
(an `AssertionError`, modelled as `none`, when the guard fails), otherwise
a copy with the scale divided. -/
def divScalar (m : SparseMatrix) (y : ℚ) : Option SparseMatrix :=
  if |y| > tol8 then some { m with scale := m.scale / y } else none

/-- Fold the scalar into the diagonals (`incorporate_scale`): a no-op when
the scale is within 1e-8 of one, otherwise every diagonal is multiplied by
the scale and the scale reset to one. -/
def incorporate (m : SparseMatrix) : SparseMatrix :=
  if |m.scale - 1| < tol8 then m
  else { m with storage := m.storage.map fun p => (p.1, p.2.map (· * m.scale)),
                scale := 1 }

end SparseMatrix

section BasicLemmas

@[simp] theorem lookAssoc_nil (k : ℤ) : lookAssoc [] k = none := rfl

@[simp] theorem lookAssoc_cons (p : ℤ × Diag) (rest : List (ℤ × Diag)) (k : ℤ) :
    lookAssoc (p :: rest) k = if p.1 = k then some p.2 else lookAssoc rest k := rfl

theorem normSq_self_sub_self (l : List ℚ) :
    SparseMatrix.normSq (List.zipWith (· - ·) l l) = 0 := by
  induction l with
  | nil => rfl
  | cons x xs ih =>
      simp only [List.zipWith_cons_cons, SparseMatrix.normSq, List.map_cons,
        List.sum_cons] at *
      rw [ih]
      ring

theorem tol8_pos : 0 < tol8 := by norm_num [tol8]

/-- Structural equality is reflexive for matrices sharing storage and
shape: used by several claims below. -/
theorem sparseEq_of_same_data (a b : SparseMatrix)
    (hsh : a.shape = b.shape) (hst : a.storage = b.storage) :
    SparseMatrix.sparseEq a b = true := by
  have hk : a.keys = b.keys := by unfold SparseMatrix.keys; rw [hst]
  have hd : a.csrData = b.csrData := by
    unfold SparseMatrix.csrData SparseMatrix.denseU SparseMatrix.lookup
    rw [hsh, hst]
  unfold SparseMatrix.sparseEq
  rw [hsh, hk, hd]
  simp only [decide_True, Bool.true_and, decide_eq_true_eq]
  rw [normSq_self_sub_self]
  simp [tol8_pos, mul_pos tol8_pos tol8_pos]

end BasicLemmas

/-- C10: `SparseMatrix` equality is scale-blind: multiplying by any scalar
`c` leaves the stored diagonal dict untouched, and `__eq__` only looks at
shape, key set and the unscaled (`scaled=False`) diagonal data, so
`(A * c) == A` always holds (here proved for every matrix, in particular
every matrix with a nonzero diagonal, and every scalar `c`). -/
theorem C10_eq_is_scale_blind (A : SparseMatrix) (c : ℚ) :
    SparseMatrix.sparseEq (A.mulScalar c) A = true := by
  exact sparseEq_of_same_data _ _ rfl rfl

/-- C8: scalar division `A / y` raises (`assert abs(y) > 1e-8` fails) for
every `|y| < 1e-8`, and for every `|y| > 1e-8` it succeeds, returning a
copy of `A` with the scale divided by `y` (the diagonal dict, shape and
`A` itself are untouched). -/
theorem C8_div_scalar (A : SparseMatrix) (y : ℚ) :
    (|y| < tol8 → A.divScalar y = none) ∧
    (|y| > tol8 → A.divScalar y = some { A with scale := A.scale / y }) := by
  constructor
  · intro h
    unfold SparseMatrix.divScalar
    rw [if_neg]
    exact fun hc => absurd h (not_lt.mpr (le_of_lt hc))
  · intro h
    unfold SparseMatrix.divScalar
    rw [if_pos h]

/-- C8 witness: both branches of the division contract at concrete inputs:
`y = 1e-9` raises, `y = 2` divides the scale of a concrete matrix. -/
theorem C8_div_scalar_witness :
    (SparseMatrix.mk [(0, [3, 3])] (2, 2) 5 false).divScalar (1 / 1000000000)
      = none ∧
    (SparseMatrix.mk [(0, [3, 3])] (2, 2) 5 false).divScalar 2
      = some (SparseMatrix.mk [(0, [3, 3])] (2, 2) (5 / 2) false) := by
  refine ⟨(C8_div_scalar _ _).1 (by rw [abs_of_pos (by norm_num)]; norm_num [tol8]), ?_⟩
  have h := (C8_div_scalar (SparseMatrix.mk [(0, [3, 3])] (2, 2) 5 false) 2).2
    (by rw [abs_of_pos (by norm_num)]; norm_num [tol8])
  rw [h]

/-! Solver selection (`get_solver`, `issymmetric`). -/

/-- Insertion of an integer into a sorted list (helper for `sorted_keys`,
which the source computes with `np.sort`). -/
def insertSorted (x : ℤ) : List ℤ → List ℤ
  | [] => [x]
  | y :: ys => if x ≤ y then x :: y :: ys else y :: insertSorted x ys

/-- Sorting a list of integers (`np.sort` over the key array). -/
def sortInts (l : List ℤ) : List ℤ := l.foldr insertSorted []

/-- Elementwise closeness of two diagonals: `np.all(abs(d - d2) < 1e-8)`
for equal-length arrays. -/
def diagCloseB (d d2 : Diag) : Bool :=
  (List.zipWith (fun a b => decide (|a - b| < tol8)) d d2).all id

namespace SparseMatrix

/-- Keys sorted ascending (`self.sorted_keys()`). -/
def sortedKeys (m : SparseMatrix) : List ℤ := sortInts m.keys

/-- Body of the `issymmetric` loop: iterate over the dict items in storage
order; skip non-positive offsets; for a positive offset `k` look up the
mirrored offset `-k` — a missing mirror is a `KeyError` (`none`); a pair
that is not elementwise close returns `False` immediately. -/
def symPairs (full : List (ℤ × Diag)) : List (ℤ × Diag) → Option Bool
  | [] => some true
  | (k, d) :: rest =>
    if k ≤ 0 then symPairs full rest
    else
      match lookAssoc full (-k) with
      | none => none
      | some d2 => if diagCloseB d d2 then symPairs full rest else some false

/-- Symmetry test `issymmetric`: `False` when the offsets do not sum to
zero, otherwise the pairwise mirror check (which can raise). -/
def issymmetric (m : SparseMatrix) : Option Bool :=
  if m.keys.sum ≠ 0 then some false else symPairs m.storage m.storage

end SparseMatrix

/-- Solvers that `get_solver` can select (classes from `shenfun.la`). -/
inductive SolverKind where
  | TwoDMA | TDMA | TDMA_O | FDMA | PDMA | Solve
  deriving DecidableEq, Inhabited

namespace SparseMatrix

/-- Solver selection `get_solver`, mirroring the source's dispatch on
`len(self)` and `sorted_keys()`; the five-diagonal branch evaluates
`issymmetric` before inspecting the offset pattern, so its possible
`KeyError` propagates (`none`). -/
def get_solver (m : SparseMatrix) : Option SolverKind :=
  if m.storage.length = 2 then
    if m.sortedKeys = [0, 2] then some .TwoDMA else some .Solve
  else if m.storage.length = 3 then
    if m.sortedKeys = [-2, 0, 2] then some .TDMA
    else if m.sortedKeys = [-1, 0, 1] then
      match m.issymmetric with
      | none => none
      | some true => some .TDMA_O
      | some false => some .Solve
    else some .Solve
  else if m.storage.length = 4 then
    if m.sortedKeys = [-2, 0, 2, 4] then some .FDMA else some .Solve
  else if m.storage.length = 5 then
    match m.issymmetric with
    | none => none
    | some true =>
        if m.sortedKeys = [-4, -2, 0, 2, 4] then some .PDMA else some .Solve
    | some false => some .Solve
  else some .Solve

/-- Symmetry test as the claim words it: offsets sum to zero and every
positive offset has a stored mirror whose diagonal is elementwise close
(a missing mirror fails the test rather than raising). -/
def symSpecB (m : SparseMatrix) : Bool :=
  decide (m.keys.sum = 0) &&
  m.storage.all fun p =>
    decide (p.1 ≤ 0) ||
    (match lookAssoc m.storage (-p.1) with
     | none => false
     | some d2 => diagCloseB p.2 d2)

/-- Solver selection as the claim words it: a total function of the sorted
offset pattern and the symmetry test, with `Solve` for every other
pattern or failed symmetry test. -/
def get_solver_spec (m : SparseMatrix) : SolverKind :=
  if m.sortedKeys = [0, 2] then .TwoDMA
  else if m.sortedKeys = [-2, 0, 2] then .TDMA
  else if m.sortedKeys = [-1, 0, 1] ∧ m.symSpecB = true then .TDMA_O
  else if m.sortedKeys = [-2, 0, 2, 4] then .FDMA
  else if m.sortedKeys = [-4, -2, 0, 2, 4] ∧ m.symSpecB = true then .PDMA
  else .Solve

end SparseMatrix

theorem length_insertSorted (x : ℤ) (l : List ℤ) :
    (insertSorted x l).length = l.length + 1 := by
  induction l with
  | nil => rfl
  | cons y ys ih =>
      unfold insertSorted
      by_cases h : x ≤ y
      · simp [h]
      · simp [h, ih]

theorem length_sortInts (l : List ℤ) : (sortInts l).length = l.length := by
  induction l with
  | nil => rfl
  | cons y ys ih =>
      unfold sortInts at *
      simp [List.foldr_cons, length_insertSorted, ih]

theorem length_sortedKeys (m : SparseMatrix) :
    m.sortedKeys.length = m.storage.length := by
  unfold SparseMatrix.sortedKeys SparseMatrix.keys
  rw [length_sortInts, List.length_map]

/-- When the mirror loop does not raise, it computes exactly the claim's
pairwise check over the items it visits. -/
theorem symPairs_eq_all (full : List (ℤ × Diag)) (l : List (ℤ × Diag))
    (h : SparseMatrix.symPairs full l ≠ none) :
    SparseMatrix.symPairs full l =
      some (l.all fun p =>
        decide (p.1 ≤ 0) ||
        (match lookAssoc full (-p.1) with
         | none => false
         | some d2 => diagCloseB p.2 d2)) := by
  induction l with
  | nil => rfl
  | cons p rest ih =>
      obtain ⟨k, d⟩ := p
      unfold SparseMatrix.symPairs at h ⊢
      by_cases hk : k ≤ 0
      · rw [if_pos hk] at h ⊢
        rw [ih h]
        simp [hk]
      · rw [if_neg hk] at h ⊢
        cases hl : lookAssoc full (-k) with
        | none =>
            rw [hl] at h
            exact absurd rfl h
        | some d2 =>
            rw [hl] at h
            simp only at h
            by_cases hc : diagCloseB d d2
            · dsimp only
              rw [if_pos hc] at h ⊢
              rw [ih h]
              simp [hk, hc, hl]
            · dsimp only
              rw [if_neg hc] at h ⊢
              simp [hk, hc, hl]

theorem issymmetric_eq_spec (m : SparseMatrix) (h : m.issymmetric ≠ none) :
    m.issymmetric = some m.symSpecB := by
  unfold SparseMatrix.issymmetric at h ⊢
  by_cases hs : m.keys.sum = 0
  · rw [if_neg (not_not_intro hs)] at h ⊢
    rw [symPairs_eq_all _ _ h]
    unfold SparseMatrix.symSpecB
    simp [hs]
  · rw [if_pos hs]
    unfold SparseMatrix.symSpecB
    simp [hs]

/-- Five stored offsets summing to zero, but offset `1` has no stored
mirror `-1`: the symmetry check raises `KeyError` inside `get_solver`. -/
def keyErrMat : SparseMatrix :=
  ⟨[(-6, [1]), (0, [1]), (1, [1]), (2, [1]), (3, [1])], (7, 7), 1, false⟩

/-- C1 counterexample: the claim says any offset set other than the five
listed patterns yields the generic fallback solver `Solve`; but for this
five-offset matrix (offsets `{-6, 0, 1, 2, 3}`, which sum to zero while
offset `1` has no stored mirror) `get_solver` evaluates `issymmetric`,
which raises `KeyError` (`none`) instead of returning `Solve`. -/
theorem C1_counterexample :
    keyErrMat.get_solver = none ∧
    keyErrMat.get_solver_spec = SolverKind.Solve := by
  constructor <;> decide

/-- C1 (amended): whenever the symmetry test does not raise — in
particular whenever every positive stored offset has its mirror stored —
`get_solver` selects exactly the solver the claim describes: `{0, 2}` →
TwoDMA; `{-2, 0, 2}` → TDMA; `{-1, 0, 1}` and symmetric → TDMA_O;
`{-2, 0, 2, 4}` → FDMA; `{-4, -2, 0, 2, 4}` and symmetric → PDMA;
anything else (or a failed symmetry test) → Solve. -/
theorem C1_get_solver_selection (m : SparseMatrix)
    (h : m.issymmetric ≠ none) :
    m.get_solver = some m.get_solver_spec := by
  have hlen := length_sortedKeys m
  have hspec := issymmetric_eq_spec m h
  unfold SparseMatrix.get_solver SparseMatrix.get_solver_spec
  rw [hspec]
  by_cases h02 : m.sortedKeys = [0, 2]
  · have h2 : m.storage.length = 2 := by rw [← hlen, h02]; rfl
    simp [h2, h02]
  by_cases h202 : m.sortedKeys = [-2, 0, 2]
  · have h3 : m.storage.length = 3 := by rw [← hlen, h202]; rfl
    simp [h3, h202, h02]
  by_cases h101 : m.sortedKeys = [-1, 0, 1]
  · have h3 : m.storage.length = 3 := by rw [← hlen, h101]; rfl
    cases hsy : m.symSpecB with
    | true => simp [h3, h02, h202, h101, hsy]
    | false => simp [h3, h02, h202, h101, hsy]
  by_cases h4 : m.sortedKeys = [-2, 0, 2, 4]
  · have hl4 : m.storage.length = 4 := by rw [← hlen, h4]; rfl
    simp [hl4, h02, h202, h101, h4]
  by_cases h5 : m.sortedKeys = [-4, -2, 0, 2, 4]
  · have hl5 : m.storage.length = 5 := by rw [← hlen, h5]; rfl
    cases hsy : m.symSpecB with
    | true => simp [hl5, h02, h202, h101, h4, h5, hsy]
    | false => simp [hl5, h02, h202, h101, h4, h5, hsy]
  cases hsy : m.symSpecB with
  | true => simp [h02, h202, h101, h4, h5, hsy]
  | false => simp [h02, h202, h101, h4, h5, hsy]

/-- Concrete symmetric tridiagonal matrix with offsets `{-1, 0, 1}`. -/
def triSymMat : SparseMatrix :=
  ⟨[(-1, [1, 1]), (0, [2, 2, 2]), (1, [1, 1])], (3, 3), 1, false⟩

/-- C1 witness: the selection theorem applied to a concrete symmetric
tridiagonal matrix (which is picked up by the TDMA_O rule). -/
theorem C1_get_solver_selection_witness :
    triSymMat.issymmetric ≠ none ∧
    triSymMat.get_solver = some triSymMat.get_solver_spec := by
  have hs : triSymMat.issymmetric = some true := by
    norm_num [triSymMat, SparseMatrix.issymmetric, SparseMatrix.keys,
      SparseMatrix.symPairs, lookAssoc, diagCloseB, tol8]
  refine ⟨by simp [hs], C1_get_solver_selection triSymMat (by simp [hs])⟩

/-! Diagonal extraction from a dense matrix (`extract_diagonal_matrix`). -/

/-- A dense 2-d numpy array: shape and an entry function. -/
structure DenseMat where
  rows : ℕ
  cols : ℕ
  entry : ℕ → ℕ → ℚ

/-- Upper diagonal `M.diagonal(i)` for `i ≥ 0`: entries `(t, t+i)`,
`t < min(rows, cols - i)`. -/
def upperDiag (M : DenseMat) (i : ℕ) : Diag :=
  (List.range (min M.rows (M.cols - i))).map fun t => M.entry t (t + i)

/-- Lower diagonal `M.diagonal(-i)` for `i ≥ 1`: entries `(t+i, t)`,
`t < min(rows - i, cols)`. -/
def lowerDiag (M : DenseMat) (i : ℕ) : Diag :=
  (List.range (min (M.rows - i) M.cols)).map fun t => M.entry (t + i) t

/-- Diagonal of `M` at a signed offset. -/
def diagOf (M : DenseMat) (k : ℤ) : Diag :=
  if 0 ≤ k then upperDiag M k.toNat else lowerDiag M (-k).toNat

/-- Maximum absolute value of a list (`abs(u).max()`; `0` for the empty
list, which in the source only arises for degenerate shapes). -/
def maxAbs (l : List ℚ) : ℚ := l.foldl (fun acc x => max acc |x|) 0

/-- Global `abs(M).max()`. -/
def globalMaxAbs (M : DenseMat) : ℚ :=
  maxAbs ((List.range M.rows).flatMap fun i =>
    (List.range M.cols).map fun j => M.entry i j)

/-- Retention test of `extract_diagonal_matrix`:
`abs(u).max() > abstol and abs(u).max()/relmax > reltol` with both
tolerances 1e-10 (the `and` short-circuits before the division whenever
the first conjunct fails, so `relmax = 0` is never divided by in the
source; rational division is total here). -/
def keepDiag (u : Diag) (relmax : ℚ) : Prop :=
  maxAbs u > tol10 ∧ maxAbs u / relmax > tol10

instance (u : Diag) (relmax : ℚ) : Decidable (keepDiag u relmax) :=
  inferInstanceAs (Decidable (_ ∧ _))

/-- Shallow embedding of `extract_diagonal_matrix(M)` (tolerances at their
default 1e-10): the upper loop `for i in range(M.shape[1])` followed by
the lower loop `for i in range(1, M.shape[0])`, keeping a diagonal iff
`keepDiag`; the result is a `SparseMatrix` of `M`'s shape with unit
scale. -/
def extract_diagonal_matrix (M : DenseMat) : SparseMatrix :=
  let relmax := globalMaxAbs M
  let upper := (List.range M.cols).filterMap fun i =>
    if keepDiag (upperDiag M i) relmax then some ((i : ℤ), upperDiag M i)
    else none
  let lower := (List.range (M.rows - 1)).filterMap fun i =>
    if keepDiag (lowerDiag M (i + 1)) relmax
    then some ((-(i + 1 : ℕ) : ℤ), lowerDiag M (i + 1)) else none
  ⟨upper ++ lower, (M.rows, M.cols), 1, false⟩

theorem maxAbs_nil : maxAbs [] = 0 := rfl

theorem tol10_pos : 0 < tol10 := by norm_num [tol10]

theorem lookAssoc_isSome_iff (st : List (ℤ × Diag)) (k : ℤ) :
    (lookAssoc st k).isSome ↔ k ∈ st.map Prod.fst := by
  induction st with
  | nil => simp
  | cons p rest ih =>
      by_cases h : p.1 = k
      · simp [h]
      · simp only [lookAssoc_cons, if_neg h, List.map_cons, List.mem_cons]
        rw [ih]
        constructor
        · exact Or.inr
        · rintro (hc | hm)
          · exact absurd hc.symm h
          · exact hm

theorem lookAssoc_mem (st : List (ℤ × Diag)) (k : ℤ) (v : Diag)
    (h : lookAssoc st k = some v) : (k, v) ∈ st := by
  induction st with
  | nil => simp at h
  | cons p rest ih =>
      by_cases hp : p.1 = k
      · rw [lookAssoc_cons, if_pos hp] at h
        obtain rfl : p.2 = v := by injection h
        rw [← hp]
        exact List.mem_cons_self p rest
      · rw [lookAssoc_cons, if_neg hp] at h
        exact List.mem_cons_of_mem _ (ih h)

/-- Storage membership characterization for `extract_diagonal_matrix`. -/
theorem extract_mem_storage (M : DenseMat) (p : ℤ × Diag) :
    p ∈ (extract_diagonal_matrix M).storage ↔
      (∃ i : ℕ, i < M.cols ∧ keepDiag (upperDiag M i) (globalMaxAbs M) ∧
        p = ((i : ℤ), upperDiag M i)) ∨
      (∃ i : ℕ, i < M.rows - 1 ∧
        keepDiag (lowerDiag M (i + 1)) (globalMaxAbs M) ∧
        p = ((-(i + 1 : ℕ) : ℤ), lowerDiag M (i + 1))) := by
  unfold extract_diagonal_matrix
  simp only [List.mem_append, List.mem_filterMap, List.mem_range]
  constructor
  · rintro (⟨i, hi, hp⟩ | ⟨i, hi, hp⟩)
    · left
      refine ⟨i, hi, ?_, ?_⟩ <;>
        · by_cases hk : keepDiag (upperDiag M i) (globalMaxAbs M)
          · simp [hk] at hp; simp [hk, hp.symm]
          · simp [hk] at hp
    · right
      refine ⟨i, hi, ?_, ?_⟩ <;>
        · by_cases hk : keepDiag (lowerDiag M (i + 1)) (globalMaxAbs M)
          · simp [hk] at hp; simp [hk, hp.symm]
          · simp [hk] at hp
  · rintro (⟨i, hi, hk, hp⟩ | ⟨i, hi, hk, hp⟩)
    · exact Or.inl ⟨i, hi, by simp [hk, hp]⟩
    · exact Or.inr ⟨i, hi, by simp [hk, hp]⟩

theorem upperDiag_ne_nil (M : DenseMat) (i : ℕ) (h : upperDiag M i ≠ []) :
    i < M.cols := by
  unfold upperDiag at h
  rw [Ne, List.map_eq_nil, List.range_eq_nil] at h
  have hpos := Nat.pos_of_ne_zero h
  rw [lt_min_iff] at hpos
  omega

theorem lowerDiag_ne_nil (M : DenseMat) (i : ℕ) (h : lowerDiag M i ≠ []) :
    i < M.rows := by
  unfold lowerDiag at h
  rw [Ne, List.map_eq_nil, List.range_eq_nil] at h
  have hpos := Nat.pos_of_ne_zero h
  rw [lt_min_iff] at hpos
  omega

theorem keepDiag_ne_nil (u : Diag) (r : ℚ) (h : keepDiag u r) : u ≠ [] := by
  intro hnil
  rw [hnil] at h
  exact absurd h.1 (by rw [maxAbs_nil]; exact not_lt.mpr (le_of_lt tol10_pos))

/-- C3: `extract_diagonal_matrix` returns a `SparseMatrix` of the same
shape (and unit scale) whose key set contains an offset `k` — positive,
zero or negative — iff the diagonal of `M` at `k` passes the retention
test (max abs value above the absolute tolerance 1e-10 AND max abs value
divided by the global max abs entry above the relative tolerance 1e-10),
and every retained diagonal stores exactly `M`'s diagonal entries. -/
theorem C3_extract_diagonal_matrix (M : DenseMat)
    (hr : 0 < M.rows) (hc : 0 < M.cols) :
    (extract_diagonal_matrix M).shape = (M.rows, M.cols) ∧
    (∀ k : ℤ, k ∈ (extract_diagonal_matrix M).keys ↔
      keepDiag (diagOf M k) (globalMaxAbs M)) ∧
    (∀ k : ℤ, k ∈ (extract_diagonal_matrix M).keys →
      (extract_diagonal_matrix M).lookup k = some (diagOf M k)) := by
  have hmem := extract_mem_storage M
  have hdiag : ∀ p : ℤ × Diag, p ∈ (extract_diagonal_matrix M).storage →
      p.2 = diagOf M p.1 ∧ keepDiag (diagOf M p.1) (globalMaxAbs M) := by
    intro p hp
    rcases (hmem p).mp hp with ⟨i, _, hk, rfl⟩ | ⟨i, _, hk, rfl⟩
    · have hd : diagOf M ((i : ℕ) : ℤ) = upperDiag M i := by
        unfold diagOf
        rw [if_pos (Int.natCast_nonneg i)]
        simp
      exact ⟨hd.symm, by rw [hd]; exact hk⟩
    · have hd : diagOf M (-(i + 1 : ℕ) : ℤ) = lowerDiag M (i + 1) := by
        unfold diagOf
        rw [if_neg (by omega)]
        simp
      exact ⟨hd.symm, by rw [hd]; exact hk⟩
  refine ⟨rfl, ?_, ?_⟩
  · intro k
    constructor
    · intro hk
      obtain ⟨p, hp, hpk⟩ := List.mem_map.mp hk
      have hkp := (hdiag p hp).2
      rw [hpk] at hkp
      exact hkp
    · intro hkeep
      by_cases hk : 0 ≤ k
      · have hd : diagOf M k = upperDiag M k.toNat := by
          unfold diagOf; rw [if_pos hk]
        rw [hd] at hkeep
        have hlt : k.toNat < M.cols :=
          upperDiag_ne_nil M k.toNat (keepDiag_ne_nil _ _ hkeep)
        refine List.mem_map.mpr ⟨((k.toNat : ℤ), upperDiag M k.toNat), ?_, ?_⟩
        · exact (hmem _).mpr (Or.inl ⟨k.toNat, hlt, hkeep, rfl⟩)
        · exact Int.toNat_of_nonneg hk
      · push_neg at hk
        obtain ⟨i, rfl⟩ : ∃ i : ℕ, k = -((i + 1 : ℕ) : ℤ) :=
          ⟨(-k).toNat - 1, by omega⟩
        have hd : diagOf M (-((i + 1 : ℕ) : ℤ)) = lowerDiag M (i + 1) := by
          unfold diagOf
          rw [if_neg (by omega)]
          simp
        rw [hd] at hkeep
        have hlt : i + 1 < M.rows :=
          lowerDiag_ne_nil M (i + 1) (keepDiag_ne_nil _ _ hkeep)
        refine List.mem_map.mpr
          ⟨(-((i + 1 : ℕ) : ℤ), lowerDiag M (i + 1)), ?_, rfl⟩
        exact (hmem _).mpr (Or.inr ⟨i, by omega, hkeep, rfl⟩)
  · intro k hk
    obtain ⟨v, hv⟩ := Option.isSome_iff_exists.mp
      ((lookAssoc_isSome_iff _ k).mpr hk)
    have hvm := lookAssoc_mem _ _ _ hv
    have heq := (hdiag (k, v) hvm).1
    simp only at heq
    unfold SparseMatrix.lookup
    rw [hv, heq]

/-- Concrete 2x2 dense matrix `[[1, 0], [0, 1]]`. -/
def denseId2 : DenseMat :=
  ⟨2, 2, fun i j => if i = j then 1 else 0⟩

/-- C3 witness: the extraction theorem applied to a concrete 2x2 identity
matrix. -/
theorem C3_extract_diagonal_matrix_witness :
    (extract_diagonal_matrix denseId2).shape = (denseId2.rows, denseId2.cols) ∧
    (∀ k : ℤ, k ∈ (extract_diagonal_matrix denseId2).keys ↔
      keepDiag (diagOf denseId2 k) (globalMaxAbs denseId2)) ∧
    (∀ k : ℤ, k ∈ (extract_diagonal_matrix denseId2).keys →
      (extract_diagonal_matrix denseId2).lookup k = some (diagOf denseId2 k)) :=
  C3_extract_diagonal_matrix denseId2 (by norm_num [denseId2]) (by norm_num [denseId2])

/-! Addition and subtraction of sparse matrices (`__add__` / `__sub__`). -/

/-- Length of the diagonal at offset `k` of a matrix with the given shape.
Well-formed matrices store diagonals of exactly these lengths (scipy's
`diags` validates them). -/
def diagLen (shape : ℕ × ℕ) (k : ℤ) : ℕ :=
  if 0 ≤ k then min shape.1 (shape.2 - k.toNat)
  else min (shape.1 - (-k).toNat) shape.2

namespace SparseMatrix

/-- Well-formedness: dict keys are distinct (Python dict invariant) and
every stored diagonal has the length prescribed by its offset. -/
def wf (m : SparseMatrix) : Prop :=
  m.keys.Nodup ∧ ∀ p ∈ m.storage, p.2.length = diagLen m.shape p.1

/-- The merge loop shared by `__add__` and `__sub__`:
`for key, val in d.items(): f[key] = op(f[key], val) if key in f else init(val)`.
For `__add__`, `op` is elementwise addition and `init` the identity (the
operand's array object itself); for `__sub__`, `op` is elementwise
subtraction and `init` elementwise negation. -/
def mergeFold (op : Diag → Diag → Diag) (init : Diag → Diag)
    (st : List (ℤ × Diag)) (bs : List (ℤ × Diag)) : List (ℤ × Diag) :=
  bs.foldl (fun acc p =>
    match lookAssoc acc p.1 with
    | some v => setKey acc p.1 (op v p.2)
    | none => setKey acc p.1 (init p.2)) st

/-- Addition `__add__`: the three near-zero-scale short cuts (threshold
1e-15), then the general branch, which copies `self`'s dict, folds both
scales into the diagonals (`incorporate_scale`; a no-op for scales within
1e-8 of one) and merges the other operand's diagonals in.  All branches
construct a base-class `SparseMatrix` (so `bc = false`); Python's scalar
`0` diagonal in the first branch is modelled by the singleton `[0]`. -/
def addSM (A B : SparseMatrix) : SparseMatrix :=
  if |A.scale| < tol15 ∧ |B.scale| < tol15 then ⟨[(0, [0])], A.shape, 1, false⟩
  else if |A.scale| < tol15 then ⟨B.storage, B.shape, B.scale, false⟩
  else if |B.scale| < tol15 then ⟨A.storage, A.shape, A.scale, false⟩
  else
    let f := incorporate ⟨A.storage, A.shape, A.scale, false⟩
    let B2 := incorporate B
    ⟨mergeFold (List.zipWith (· + ·)) id f.storage B2.storage, f.shape, f.scale,
      false⟩

/-- Subtraction `__sub__`, mirroring `__add__` with subtraction in the
merge, negation for offsets only present in the subtrahend, and a negated
scale in the tiny-`self` branch. -/
def subSM (A B : SparseMatrix) : SparseMatrix :=
  if |A.scale| < tol15 ∧ |B.scale| < tol15 then ⟨[(0, [0])], A.shape, 1, false⟩
  else if |A.scale| < tol15 then ⟨B.storage, B.shape, -B.scale, false⟩
  else if |B.scale| < tol15 then ⟨A.storage, A.shape, A.scale, false⟩
  else
    let f := incorporate ⟨A.storage, A.shape, A.scale, false⟩
    let B2 := incorporate B
    ⟨mergeFold (List.zipWith (· - ·)) (List.map Neg.neg) f.storage B2.storage,
      f.shape, f.scale, false⟩

end SparseMatrix

theorem lookAssoc_setKey_self (st : List (ℤ × Diag)) (k : ℤ) (v : Diag) :
    lookAssoc (setKey st k v) k = some v := by
  induction st with
  | nil => simp [setKey]
  | cons p rest ih =>
      unfold setKey
      by_cases h : p.1 = k
      · simp [h]
      · simp [h, ih]

theorem lookAssoc_setKey_ne (st : List (ℤ × Diag)) (k k2 : ℤ) (v : Diag)
    (h : k2 ≠ k) : lookAssoc (setKey st k v) k2 = lookAssoc st k2 := by
  induction st with
  | nil =>
      unfold setKey
      rw [lookAssoc_cons, if_neg (fun hc : k = k2 => h hc.symm)]
  | cons p rest ih =>
      unfold setKey
      by_cases hp : p.1 = k
      · rw [if_pos hp]
        rw [lookAssoc_cons, lookAssoc_cons, if_neg (fun hc : k = k2 => h hc.symm),
          if_neg (by rw [hp]; exact fun hc : k = k2 => h hc.symm)]
      · rw [if_neg hp, lookAssoc_cons, lookAssoc_cons]
        by_cases hp2 : p.1 = k2
        · rw [if_pos hp2, if_pos hp2]
        · rw [if_neg hp2, if_neg hp2, ih]

theorem mapfst_setKey_mem (st : List (ℤ × Diag)) (k : ℤ) (v : Diag)
    (h : k ∈ st.map Prod.fst) :
    (setKey st k v).map Prod.fst = st.map Prod.fst := by
  induction st with
  | nil => simp at h
  | cons p rest ih =>
      unfold setKey
      by_cases hp : p.1 = k
      · rw [if_pos hp]
        simp [hp]
      · rw [if_neg hp]
        simp only [List.map_cons, List.mem_cons] at h ⊢
        rcases h with h | h
        · exact absurd h.symm hp
        · rw [ih h]

theorem lookAssoc_eq_none_of_not_mem (st : List (ℤ × Diag)) (k : ℤ)
    (h : k ∉ st.map Prod.fst) : lookAssoc st k = none := by
  rcases ho : lookAssoc st k with _ | v
  · rfl
  · exact absurd ((lookAssoc_isSome_iff st k).mp (by rw [ho]; rfl)) h

theorem mergeFold_mapfst (op : Diag → Diag → Diag) (init : Diag → Diag)
    (st bs : List (ℤ × Diag)) (h : ∀ p ∈ bs, p.1 ∈ st.map Prod.fst) :
    (SparseMatrix.mergeFold op init st bs).map Prod.fst = st.map Prod.fst := by
  induction bs generalizing st with
  | nil => rfl
  | cons p rest ih =>
      have hmem : p.1 ∈ st.map Prod.fst := h p (List.mem_cons_self _ _)
      obtain ⟨v, hv⟩ := Option.isSome_iff_exists.mp
        ((lookAssoc_isSome_iff st p.1).mpr hmem)
      have hkeys := mapfst_setKey_mem st p.1 (op v p.2) hmem
      unfold SparseMatrix.mergeFold
      rw [List.foldl_cons, hv]
      dsimp only
      have hrest : ∀ q ∈ rest, q.1 ∈ (setKey st p.1 (op v p.2)).map Prod.fst := by
        intro q hq
        rw [hkeys]
        exact h q (List.mem_cons_of_mem _ hq)
      have hih := ih (setKey st p.1 (op v p.2)) hrest
      unfold SparseMatrix.mergeFold at hih
      rw [hih, hkeys]

theorem mergeFold_lookAssoc (op : Diag → Diag → Diag) (init : Diag → Diag)
    (st bs : List (ℤ × Diag)) (k : ℤ) :
    (bs.map Prod.fst).Nodup →
    (∀ p ∈ bs, p.1 ∈ st.map Prod.fst) →
    lookAssoc (SparseMatrix.mergeFold op init st bs) k =
      match lookAssoc bs k with
      | some w => (lookAssoc st k).map (fun v => op v w)
      | none => lookAssoc st k := by
  induction bs generalizing st with
  | nil => intro _ _; rfl
  | cons p rest ih =>
      intro hnd hsub
      have hmem : p.1 ∈ st.map Prod.fst := hsub p (List.mem_cons_self _ _)
      obtain ⟨v, hv⟩ := Option.isSome_iff_exists.mp
        ((lookAssoc_isSome_iff st p.1).mpr hmem)
      have hkeys := mapfst_setKey_mem st p.1 (op v p.2) hmem
      rw [List.map_cons] at hnd
      have hndr : (rest.map Prod.fst).Nodup := (List.nodup_cons.mp hnd).2
      have hnp : p.1 ∉ rest.map Prod.fst := (List.nodup_cons.mp hnd).1
      have hsubr : ∀ q ∈ rest, q.1 ∈ (setKey st p.1 (op v p.2)).map Prod.fst := by
        intro q hq
        rw [hkeys]
        exact hsub q (List.mem_cons_of_mem _ hq)
      unfold SparseMatrix.mergeFold
      rw [List.foldl_cons, hv]
      dsimp only
      have hih := ih (setKey st p.1 (op v p.2)) hndr hsubr
      unfold SparseMatrix.mergeFold at hih
      rw [hih]
      by_cases hk : p.1 = k
      · subst hk
        rw [lookAssoc_eq_none_of_not_mem rest p.1 hnp, lookAssoc_cons, if_pos rfl]
        dsimp only
        rw [lookAssoc_setKey_self, hv]
        simp
      · rw [lookAssoc_setKey_ne st p.1 k (op v p.2) (fun hc => hk hc.symm),
          lookAssoc_cons, if_neg hk]

theorem incorporate_mapfst (m : SparseMatrix) :
    m.incorporate.storage.map Prod.fst = m.storage.map Prod.fst := by
  unfold SparseMatrix.incorporate
  by_cases h : |m.scale - 1| < tol8
  · rw [if_pos h]
  · rw [if_neg h]
    simp

theorem incorporate_shape (m : SparseMatrix) :
    m.incorporate.shape = m.shape := by
  unfold SparseMatrix.incorporate
  by_cases h : |m.scale - 1| < tol8
  · rw [if_pos h]
  · rw [if_neg h]

theorem incorporate_len (m : SparseMatrix) (p : ℤ × Diag)
    (hp : p ∈ m.incorporate.storage) :
    ∃ q ∈ m.storage, q.1 = p.1 ∧ p.2.length = q.2.length := by
  unfold SparseMatrix.incorporate at hp
  by_cases h : |m.scale - 1| < tol8
  · rw [if_pos h] at hp
    exact ⟨p, hp, rfl, rfl⟩
  · rw [if_neg h] at hp
    simp only [List.mem_map] at hp
    obtain ⟨q, hq, rfl⟩ := hp
    exact ⟨q, hq, rfl, by simp⟩

theorem zip_add_sub_cancel (a b : Diag) (h : a.length = b.length) :
    List.zipWith (· - ·) (List.zipWith (· + ·) a b) b = a := by
  induction a generalizing b with
  | nil => simp
  | cons x xs ih =>
      cases b with
      | nil => simp at h
      | cons y ys =>
          simp only [List.zipWith_cons_cons]
          rw [add_sub_cancel_right, ih ys (by simpa using h)]

/-- Two matrices with equal shape and pointwise-equal diagonal dicts have
identical csr data. -/
theorem csrData_congr (a b : SparseMatrix) (hsh : a.shape = b.shape)
    (hl : ∀ k, lookAssoc a.storage k = lookAssoc b.storage k) :
    a.csrData = b.csrData := by
  unfold SparseMatrix.csrData SparseMatrix.denseU SparseMatrix.lookup
  rw [hsh]
  simp only [hl]

/-- Structural equality holds whenever shapes agree, the key lists agree,
and the diagonal dicts agree pointwise. -/
theorem sparseEq_of_equiv (a b : SparseMatrix)
    (hsh : a.shape = b.shape) (hk : a.keys = b.keys)
    (hl : ∀ k, lookAssoc a.storage k = lookAssoc b.storage k) :
    SparseMatrix.sparseEq a b = true := by
  have hd := csrData_congr a b hsh hl
  unfold SparseMatrix.sparseEq
  rw [hsh, hk, hd]
  simp only [decide_True, Bool.true_and, decide_eq_true_eq]
  rw [normSq_self_sub_self]
  simp [tol8_pos, mul_pos tol8_pos tol8_pos]

/-- C2 (amended): with both scales at or above the 1e-15 near-zero
threshold, the scalar round trip `(A*c)/c == A` holds for every
`|c| > 1e-8`; the additive round trip `(A+B)-B == A` additionally needs
(i) every offset of `B` to be an offset of `A` (otherwise the result keeps
the extra offsets, with exactly-zero diagonals, and `same_keys` fails) and
(ii) `|A.scale - 1| < 1e-8` (otherwise `__add__` folds `A`'s scale into
the result's diagonals while `__eq__` compares unscaled data). -/
theorem C2_algebra_roundtrips (A B : SparseMatrix)
    (hsh : A.shape = B.shape) (hwa : A.wf) (hwb : B.wf)
    (hsub : ∀ k, k ∈ B.keys → k ∈ A.keys)
    (hA1 : |A.scale - 1| < tol8)
    (hBs : tol15 ≤ |B.scale|) :
    SparseMatrix.sparseEq (SparseMatrix.subSM (SparseMatrix.addSM A B) B) A
      = true ∧
    (∀ c : ℚ, |c| > tol8 → ∃ D, (A.mulScalar c).divScalar c = some D ∧
      SparseMatrix.sparseEq D A = true) := by
  have hAbig : ¬ |A.scale| < tol15 := by
    have h1 : (1 : ℚ) - |A.scale| ≤ |A.scale - 1| := by
      have h2 := abs_sub_abs_le_abs_sub (1 : ℚ) A.scale
      rw [abs_one, abs_sub_comm] at h2
      linarith
    intro hlt
    rw [tol8] at hA1
    rw [tol15] at hlt
    linarith
  have hBbig : ¬ |B.scale| < tol15 := not_lt.mpr hBs
  have hbase : (SparseMatrix.mk A.storage A.shape A.scale false).incorporate
      = SparseMatrix.mk A.storage A.shape A.scale false := by
    unfold SparseMatrix.incorporate
    exact if_pos hA1
  have hadd : SparseMatrix.addSM A B =
      ⟨SparseMatrix.mergeFold (List.zipWith (· + ·)) id A.storage
        B.incorporate.storage, A.shape, A.scale, false⟩ := by
    unfold SparseMatrix.addSM
    rw [if_neg (fun hcon => hAbig hcon.1), if_neg hAbig, if_neg hBbig, hbase]
  set st1 := SparseMatrix.mergeFold (List.zipWith (· + ·)) id A.storage
    B.incorporate.storage with hst1def
  have hCbase : (SparseMatrix.mk st1 A.shape A.scale false).incorporate
      = SparseMatrix.mk st1 A.shape A.scale false := by
    unfold SparseMatrix.incorporate
    exact if_pos hA1
  have hD : SparseMatrix.subSM (SparseMatrix.addSM A B) B =
      ⟨SparseMatrix.mergeFold (List.zipWith (· - ·)) (List.map Neg.neg) st1
        B.incorporate.storage, A.shape, A.scale, false⟩ := by
    rw [hadd]
    unfold SparseMatrix.subSM
    rw [if_neg (fun hcon => hAbig hcon.1), if_neg hAbig, if_neg hBbig, hCbase]
  set st2 := SparseMatrix.mergeFold (List.zipWith (· - ·)) (List.map Neg.neg)
    st1 B.incorporate.storage with hst2def
  have hBkeys : B.incorporate.storage.map Prod.fst = B.storage.map Prod.fst :=
    incorporate_mapfst B
  have hBnodup : (B.incorporate.storage.map Prod.fst).Nodup := by
    rw [hBkeys]
    exact hwb.1
  have hsubB : ∀ p ∈ B.incorporate.storage, p.1 ∈ A.storage.map Prod.fst := by
    intro p hp
    have hpk : p.1 ∈ B.incorporate.storage.map Prod.fst :=
      List.mem_map.mpr ⟨p, hp, rfl⟩
    rw [hBkeys] at hpk
    exact hsub p.1 hpk
  have hst1keys : st1.map Prod.fst = A.storage.map Prod.fst :=
    mergeFold_mapfst _ _ _ _ hsubB
  have hsubB2 : ∀ p ∈ B.incorporate.storage, p.1 ∈ st1.map Prod.fst := by
    intro p hp
    rw [hst1keys]
    exact hsubB p hp
  have hst2keys : st2.map Prod.fst = A.storage.map Prod.fst := by
    rw [hst2def, mergeFold_mapfst _ _ _ _ hsubB2, hst1keys]
  have hlook1 := mergeFold_lookAssoc (List.zipWith (· + ·)) id A.storage
    B.incorporate.storage
  have hlook2 := mergeFold_lookAssoc (List.zipWith (· - ·)) (List.map Neg.neg)
    st1 B.incorporate.storage
  have hfinal : ∀ k, lookAssoc st2 k = lookAssoc A.storage k := by
    intro k
    rw [hst2def, hlook2 k hBnodup hsubB2]
    cases hB2 : lookAssoc B.incorporate.storage k with
    | none =>
        dsimp only
        rw [hst1def, hlook1 k hBnodup hsubB, hB2]
    | some w =>
        dsimp only
        have hkB2 : k ∈ B.incorporate.storage.map Prod.fst :=
          (lookAssoc_isSome_iff _ k).mp (by rw [hB2]; rfl)
        have hkA : k ∈ A.storage.map Prod.fst := by
          rw [hBkeys] at hkB2
          exact hsub k hkB2
        obtain ⟨a, ha⟩ := Option.isSome_iff_exists.mp
          ((lookAssoc_isSome_iff A.storage k).mpr hkA)
        have hlena : a.length = diagLen A.shape k :=
          hwa.2 (k, a) (lookAssoc_mem _ _ _ ha)
        have hlenw : w.length = diagLen A.shape k := by
          obtain ⟨q, hq, hqk, hql⟩ :=
            incorporate_len B (k, w) (lookAssoc_mem _ _ _ hB2)
          rw [hql, hwb.2 q hq, ← hsh, hqk]
        rw [hst1def, hlook1 k hBnodup hsubB, hB2]
        dsimp only
        rw [ha]
        simp only [Option.map_some']
        rw [zip_add_sub_cancel a w (by rw [hlena, hlenw])]
  constructor
  · rw [hD]
    refine sparseEq_of_equiv _ _ rfl ?_ hfinal
    unfold SparseMatrix.keys
    exact hst2keys
  · intro c hc
    refine ⟨{ A.mulScalar c with scale := (A.mulScalar c).scale / c }, ?_, ?_⟩
    · unfold SparseMatrix.divScalar
      rw [if_pos hc]
    · exact sparseEq_of_same_data _ _ rfl rfl

theorem sparseEq_keys_toFinset (a b : SparseMatrix)
    (h : SparseMatrix.sparseEq a b = true) :
    a.keys.toFinset = b.keys.toFinset := by
  unfold SparseMatrix.sparseEq at h
  simp only [Bool.and_eq_true, decide_eq_true_eq] at h
  exact h.1.2

theorem sparseEq_normSq_lt (a b : SparseMatrix)
    (h : SparseMatrix.sparseEq a b = true) :
    SparseMatrix.normSq (List.zipWith (· - ·) a.csrData b.csrData)
      < tol8 * tol8 := by
  unfold SparseMatrix.sparseEq at h
  simp only [Bool.and_eq_true, decide_eq_true_eq] at h
  exact h.2.2

/-- Counterexample operands: `cexB` has offset `1` that `cexA` lacks. -/
def cexA : SparseMatrix := ⟨[(0, [1, 1])], (2, 2), 1, false⟩

def cexB : SparseMatrix := ⟨[(0, [1, 1]), (1, [1])], (2, 2), 1, false⟩

/-- Counterexample operands with `cexA2.scale = 2` away from one. -/
def cexA2 : SparseMatrix := ⟨[(0, [1, 1])], (2, 2), 2, false⟩

def cexB2 : SparseMatrix := ⟨[(0, [1, 1])], (2, 2), 1, false⟩

/-- C2 counterexample: the additive round trip `(A+B)-B == A` fails on the
code in two concrete ways the claim does not exclude: (i) when `B` stores
an offset `A` lacks, the result keeps that offset (with an exactly-zero
diagonal), so the key sets differ and `__eq__` is `False`; (ii) when
`A.scale = 2`, `__add__` folds the scale into the result's diagonals and
`__eq__` — which compares unscaled data — sees `[2,2]` against `[1,1]`. -/
theorem C2_counterexample :
    SparseMatrix.sparseEq
      (SparseMatrix.subSM (SparseMatrix.addSM cexA cexB) cexB) cexA = false ∧
    SparseMatrix.sparseEq
      (SparseMatrix.subSM (SparseMatrix.addSM cexA2 cexB2) cexB2) cexA2
      = false := by
  constructor
  · have hD : (SparseMatrix.subSM (SparseMatrix.addSM cexA cexB) cexB).keys
        = [0, 1] := by
      norm_num [cexA, cexB, SparseMatrix.addSM, SparseMatrix.subSM,
        SparseMatrix.incorporate, SparseMatrix.mergeFold, setKey, lookAssoc,
        SparseMatrix.keys, tol8, tol15]
    cases hb : SparseMatrix.sparseEq
        (SparseMatrix.subSM (SparseMatrix.addSM cexA cexB) cexB) cexA
    · rfl
    · exfalso
      have hk := sparseEq_keys_toFinset _ _ hb
      rw [hD, show cexA.keys = [0] from rfl] at hk
      have h1 : (1 : ℤ) ∈ ([(0 : ℤ), 1]).toFinset := by simp
      rw [hk] at h1
      simp at h1
  · have hD2 : SparseMatrix.subSM (SparseMatrix.addSM cexA2 cexB2) cexB2
        = ⟨[(0, [2, 2])], (2, 2), 1, false⟩ := by
      norm_num [cexA2, cexB2, SparseMatrix.addSM, SparseMatrix.subSM,
        SparseMatrix.incorporate, SparseMatrix.mergeFold, setKey, lookAssoc,
        tol8, tol15]
    cases hb : SparseMatrix.sparseEq
        (SparseMatrix.subSM (SparseMatrix.addSM cexA2 cexB2) cexB2) cexA2
    · rfl
    · exfalso
      have hn := sparseEq_normSq_lt _ _ hb
      rw [hD2] at hn
      have hd1 : (SparseMatrix.mk [(0, [2, 2])] (2, 2) 1 false).csrData
          = [2, 2] := by
        norm_num [SparseMatrix.csrData, SparseMatrix.denseU,
          SparseMatrix.lookup, lookAssoc, List.range_succ,
          List.filterMap_cons, List.filterMap_nil]
      have hd2 : cexA2.csrData = [1, 1] := by
        norm_num [cexA2, SparseMatrix.csrData, SparseMatrix.denseU,
          SparseMatrix.lookup, lookAssoc, List.range_succ,
          List.filterMap_cons, List.filterMap_nil]
      rw [hd1, hd2] at hn
      norm_num [SparseMatrix.normSq, tol8] at hn

/-- Concrete witness operands for the amended round-trip theorem. -/
def witA : SparseMatrix := ⟨[(0, [1, 1]), (1, [1])], (2, 2), 1, false⟩

def witB : SparseMatrix := ⟨[(0, [2, 2])], (2, 2), 1, false⟩

/-- C2 witness: the amended theorem applied to concrete matrices whose
offsets nest and whose scales are exactly one. -/
theorem C2_algebra_roundtrips_witness :
    SparseMatrix.sparseEq
      (SparseMatrix.subSM (SparseMatrix.addSM witA witB) witB) witA = true ∧
    (∀ c : ℚ, |c| > tol8 → ∃ D, (witA.mulScalar c).divScalar c = some D ∧
      SparseMatrix.sparseEq D witA = true) := by
  refine C2_algebra_roundtrips witA witB rfl ?_ ?_ ?_ ?_ ?_
  · unfold SparseMatrix.wf SparseMatrix.keys
    exact ⟨by decide, by decide⟩
  · unfold SparseMatrix.wf SparseMatrix.keys
    exact ⟨by decide, by decide⟩
  · unfold SparseMatrix.keys
    decide
  · norm_num [witA, tol8]
  · norm_num [witB, tol15]

/-! Tensor product matrices (`TPMatrix`). -/

/-- Multi-dimensional index into a tensor array. -/
abbrev MIndex := List ℕ

/-- A multi-dimensional numpy array, as a function of its index; the
broadcastable scale arrays of `TPMatrix` use the same representation. -/
abbrev MArray := MIndex → ℚ

/-- The part of a `TensorProductSpace` (an external collaborator of this
module) that `TPMatrix` consumes.  Modelled from the spec: `naxes` is
`get_nondiagonal_axes()` (the set of axis indices that are non-diagonal),
and each axis has an active coefficient slice `[sliceStart, sliceStop)`
used by `TPMatrix.solve` for the trial bases.  The model is
single-process: `local_slice()` is the full index range, so the
decomposition step of `get_simplified` leaves the scale unchanged. -/
structure TPSpace where
  dims : ℕ
  naxes : List ℕ
  sliceStart : ℕ → ℕ
  sliceStop : ℕ → ℕ

/-- The `Identity` matrix class: `SparseMatrix({0: 1}, shape, scale)`,
with the scalar diagonal 1 modelled as a constant list of the diagonal's
length. -/
def IdentitySM (shape : ℕ × ℕ) (scale : ℚ := 1) : SparseMatrix :=
  ⟨[(0, List.replicate (diagLen shape 0) 1)], shape, scale, false⟩

/-- `Identity.solve`: `u[:] = b; u *= (1/self.scale)`.  A zero scale is a
Python division by zero (or a non-finite result), modelled as `none`;
`Identity.solve` applies no zero-replacement. -/
def identitySolve (m : SparseMatrix) (b : List ℚ) : Option (List ℚ) :=
  if m.scale = 0 then none else some (b.map (· * (1 / m.scale)))

/-- Shallow embedding of `TPMatrix`: the per-axis matrices, the test
space (`self.space`, whose `naxes` is `self.naxes`), the trial space, the
broadcastable scale array, the block index and the `_issimplified` flag.
`pmat` is omitted: it is a redundant link to `mats[naxes[0]]`, which the
matvec model reads directly. -/
structure TPMat where
  mats : List SparseMatrix
  space : TPSpace
  trialspace : TPSpace
  scale : MArray
  global_index : Option (ℕ × ℕ)
  issimplified : Bool

/-- Diagonal axes `np.setxor1d(self.naxes, range(self.space.dimensions))`:
for `naxes ⊆ range(dims)` (true of every real space) the symmetric
difference is the complement of `naxes`. -/
def diagonalAxes (T : TPMat) : List ℕ :=
  (List.range T.space.dims).filter fun a => a ∉ T.space.naxes

/-- Diagonal value of a diagonal-axis matrix at index `i`, scaled by the
matrix's own scale (`d = mat[0]`, then `d * mat.scale` broadcast to the
tensor's dimensions). -/
def diagValAt (m : SparseMatrix) (i : ℕ) : ℚ :=
  ((m.lookup 0).getD []).getD i 0 * m.scale

/-- `TPMatrix.get_simplified`: return `self` unchanged when there are no
diagonal axes or the matrix is already simplified; otherwise build a new
`TPMatrix` in which every diagonal-axis matrix is replaced by an
`Identity` of its shape and its diagonal value (times its scale) is
multiplied into the scale array, and mark it simplified.  The
single-process `local_slice` restriction of the scale is the identity. -/
def get_simplified (T : TPMat) : TPMat :=
  if diagonalAxes T = [] ∨ T.issimplified then T
  else
    { mats := (List.range T.mats.length).map fun ax =>
        if ax ∈ diagonalAxes T then IdentitySM (T.mats.getD ax default).shape
        else T.mats.getD ax default,
      space := T.space,
      trialspace := T.trialspace,
      scale := fun idx => T.scale idx *
        ((diagonalAxes T).map fun ax =>
          diagValAt (T.mats.getD ax default) (idx.getD ax 0)).prod,
      global_index := T.global_index,
      issimplified := true }

/-- `SparseMatrix.matvec` along one axis of a tensor array, `python`
format: per stored diagonal, clipped index ranges
(`c[:min(N,M-key)] += val*v[key:min(M,N+key)]` for `key ≥ 0`, and
`c[-key:min(N,M-key)] += val*v[:min(M,N+key)]` for `key < 0`), then the
whole output scaled by `self.scale`. -/
def spMatvecAxis (m : SparseMatrix) (axis : ℕ) (v : MArray) : MArray :=
  fun idx =>
    let i := idx.getD axis 0
    let N := m.shape.1
    let M := m.shape.2
    m.scale * (m.storage.map fun p =>
      if 0 ≤ p.1 then
        (if i < min N (M - p.1.toNat)
         then p.2.getD i 0 * v (idx.set axis (i + p.1.toNat)) else 0)
      else
        (let j := (-p.1).toNat
         if j ≤ i ∧ i < min N (M + j)
         then p.2.getD (i - j) 0 * v (idx.set axis (i - j)) else 0)).sum

/-- `TPMatrix.matvec`: simplify, then dispatch on the number of
non-diagonal axes — 0: multiply by the scale array; 1: one per-axis
matvec (`pmat = mats[naxes[0]]`) then scale; 2: matvec along the first
non-diagonal axis, then along the second (the pencil transfers between
the two are pure data redistribution in the source and the identity in
this single-process model), then scale.  With three or more non-diagonal
axes the source leaves the zero-filled output untouched. -/
def tpMatvec (T : TPMat) (v : MArray) : MArray :=
  let S := get_simplified T
  match S.space.naxes with
  | [] => fun idx => S.scale idx * v idx
  | [a] => fun idx => S.scale idx * spMatvecAxis (S.mats.getD a default) a v idx
  | [a, b] => fun idx =>
      S.scale idx *
        spMatvecAxis (S.mats.getD b default) b
          (spMatvecAxis (S.mats.getD a default) a v) idx
  | _ => fun _ => 0

/-- Reciprocal with IEEE semantics for the purposes of `np.isfinite`:
`1/0` is infinite (`none`), every other reciprocal is finite. -/
def recipOpt (x : ℚ) : Option ℚ := if x = 0 then none else some (1 / x)

/-- `np.where(np.isfinite(d), d, 0)`: non-finite entries become zero. -/
def whereFinite (o : Option ℚ) : ℚ := o.getD 0

/-- Membership of an index in the trial space's active slice
(`sl = tuple(s.slice() for s in tpmat.trialspace.bases)`). -/
def inTrialSlice (sp : TPSpace) (idx : MIndex) : Prop :=
  ∀ ax, ax < sp.dims →
    sp.sliceStart ax ≤ idx.getD ax 0 ∧ idx.getD ax 0 < sp.sliceStop ax

instance (sp : TPSpace) (idx : MIndex) : Decidable (inTrialSlice sp idx) :=
  Nat.decidableBallLT _ _

/-- The 0-non-diagonal-axes branch of `TPMatrix.solve`:
`d = 1./scale` (under `errstate(divide='ignore')`),
`d = np.where(np.isfinite(d), d, 0)`, then `u[sl] = b[sl] * d[sl]` into a
zero-initialized output. -/
def tpSolve0 (S : TPMat) (b : MArray) : MArray := fun idx =>
  if inTrialSlice S.trialspace idx
  then b idx * whereFinite (recipOpt (S.scale idx))
  else 0

/-- `TPMatrix.solve` (without constraints): simplify and dispatch.  The
1- and 2-axis branches delegate to the external generic solvers
`SolverGeneric1ND`/`SolverGeneric2ND` (collaborators outside this
module), which the model leaves unspecified (`none`). -/
def tpSolve (T : TPMat) (b : MArray) : Option MArray :=
  let S := get_simplified T
  match S.space.naxes with
  | [] => some (tpSolve0 S b)
  | _ => none

theorem get_simplified_idem (T : TPMat) :
    get_simplified (get_simplified T) = get_simplified T := by
  by_cases h : diagonalAxes T = [] ∨ T.issimplified = true
  · have hT : get_simplified T = T := by rw [get_simplified, if_pos h]
    simp only [hT]
  · have hs : (get_simplified T).issimplified = true := by
      rw [get_simplified, if_neg h]
    rw [get_simplified, if_pos (Or.inr hs)]

/-- C4: for every `TPMatrix` `T` and every input array `v`, `matvec`
computed from `T` and `matvec` computed from `T.get_simplified()` agree —
exactly, hence in particular within the claimed 1e-10: `matvec` itself
begins with `tpmat = self.get_simplified()`, and `get_simplified` of an
already simplified matrix returns it unchanged, so the two computations
coincide.  `get_simplified` builds a fresh matrix (new `mats` list, new
scale array) and leaves `T`'s own per-axis matrices untouched, as the
purely functional embedding makes explicit. -/
theorem C4_matvec_simplified_invariant (T : TPMat) (v : MArray) (idx : MIndex) :
    tpMatvec (get_simplified T) v idx = tpMatvec T v idx := by
  unfold tpMatvec
  rw [get_simplified_idem]

/-- C6 counterexample: `Identity.solve` with a zero scale performs the
unguarded division `u *= (1/self.scale)` and raises/propagates a
non-finite value (`none`) instead of producing the zero-replaced result
`[0, 0]` that the claimed policy would give. -/
theorem C6_counterexample :
    identitySolve (IdentitySM (2, 2) 0) [1, 1] = none ∧
    identitySolve (IdentitySM (2, 2) 0) [1, 1] ≠ some [0, 0] := by
  constructor
  · unfold identitySolve
    rw [if_pos (show (IdentitySM (2, 2) 0).scale = 0 from rfl)]
  · unfold identitySolve
    rw [if_pos (show (IdentitySM (2, 2) 0).scale = 0 from rfl)]
    exact Option.noConfusion

/-- C6 (amended): whenever `TPMatrix.solve` takes the zero-non-diagonal-
axes branch, every entry at which the elementwise inversion of the scale
array is non-finite (the scale entry is zero) is replaced by exactly
zero, and every entry with nonzero scale is `b/scale` inside the trial
slice (zero outside).  The analogous zero-replacement is absent from
`Identity.solve`, which divides by its scale unguarded (see the
counterexample). -/
theorem C6_solve_zero_replacement (T : TPMat) (b u : MArray)
    (h : tpSolve T b = some u) (idx : MIndex) :
    ((get_simplified T).scale idx = 0 → u idx = 0) ∧
    ((get_simplified T).scale idx ≠ 0 →
      u idx = if inTrialSlice (get_simplified T).trialspace idx
              then b idx * (1 / (get_simplified T).scale idx) else 0) := by
  have h2 : (match (get_simplified T).space.naxes with
      | [] => some (tpSolve0 (get_simplified T) b)
      | _ => none) = some u := h
  cases hn : (get_simplified T).space.naxes with
  | nil =>
      rw [hn] at h2
      dsimp only at h2
      obtain rfl : tpSolve0 (get_simplified T) b = u := by injection h2
      constructor
      · intro hz
        unfold tpSolve0 whereFinite recipOpt
        rw [hz]
        simp
      · intro hz
        unfold tpSolve0 whereFinite recipOpt
        rw [if_neg hz]
        rfl
  | cons a rest =>
      rw [hn] at h2
      dsimp only at h2
      exact absurd h2 Option.noConfusion

/-- A 1-d test/trial space with no non-diagonal axes. -/
def spAllDiag : TPSpace := ⟨1, [], fun _ => 0, fun _ => 2⟩

/-- Concrete all-diagonal `TPMatrix` whose scale vanishes at index 0. -/
def exT6 : TPMat :=
  ⟨[IdentitySM (2, 2) 1], spAllDiag, spAllDiag,
   fun idx => if idx.getD 0 0 = 0 then 0 else 1, none, false⟩

/-- Concrete right-hand side. -/
def exb6 : MArray := fun _ => 5

/-- C6 witness: the zero-replacement theorem applied at a concrete
all-diagonal `TPMatrix` whose simplified scale is zero at index `[0]`. -/
theorem C6_solve_zero_replacement_witness :
    (get_simplified exT6).scale [0] = 0 ∧
    tpSolve0 (get_simplified exT6) exb6 [0] = 0 := by
  have hcond : ¬ (diagonalAxes exT6 = [] ∨ exT6.issimplified = true) := by
    decide
  have hz : (get_simplified exT6).scale [0] = 0 := by
    rw [get_simplified, if_neg hcond]
    show exT6.scale [0] * _ = 0
    rw [show exT6.scale [0] = 0 from rfl, zero_mul]
  exact ⟨hz, (C6_solve_zero_replacement exT6 exb6 _ rfl [0]).1 hz⟩

/-! Merging structurally equal tensor product matrices. -/

/-- Structural key `get_key` of a plain `SparseMatrix`:
`hash(frozenset(self))`, i.e. a value determined by the set of diagonal
offsets, modelled as the key set itself. -/
def getKeySM (m : SparseMatrix) : Finset ℤ := m.keys.toFinset

/-- `TPMatrix.__eq__`: equal `global_index`, and for the zipped per-axis
matrix pairs equal structural keys and `SparseMatrix` equality (the
docstring notes the `scale` attribute may still differ). -/
def tpEq (a b : TPMat) : Bool :=
  decide (a.global_index = b.global_index) &&
  (List.zip a.mats b.mats).all fun pq =>
    decide (getKeySM pq.1 = getKeySM pq.2) && SparseMatrix.sparseEq pq.1 pq.2

/-- `TPMatrix.__iadd__` (`b += a`): asserts `b == a` (callers establish
it) and sums the scale arrays elementwise into `b`. -/
def tpIadd (b a : TPMat) : TPMat :=
  { b with scale := fun idx => b.scale idx + a.scale idx }

/-- `get_simplified_tpmatrices`: simplify every term, then fold the tail
into a bucket list `B` seeded with the first term: each term `a` is added
(`b += a`) into every `b ∈ B` with `a == b` — the loop has no `break` —
and appended when it equals none.  An empty input raises `IndexError` at
`B = [A[0]]` (`none`). -/
def get_simplified_tpmatrices (tpmats : List TPMat) : Option (List TPMat) :=
  match tpmats.map get_simplified with
  | [] => none
  | a0 :: rest => some (rest.foldl (fun B a =>
      let B2 := B.map fun b => if tpEq a b then tpIadd b a else b
      if B.any fun b => tpEq a b then B2 else B2 ++ [a]) [a0])

/-- C5 (amended): two terms whose simplified forms are structurally equal
merge into a single returned term whose scale array is the elementwise
sum of the two simplified scale arrays. -/
theorem C5_merge_structurally_equal (t1 t2 : TPMat)
    (h : tpEq (get_simplified t2) (get_simplified t1) = true) :
    get_simplified_tpmatrices [t1, t2]
      = some [tpIadd (get_simplified t1) (get_simplified t2)] ∧
    ∀ idx, (tpIadd (get_simplified t1) (get_simplified t2)).scale idx
      = (get_simplified t1).scale idx + (get_simplified t2).scale idx := by
  refine ⟨?_, fun idx => rfl⟩
  unfold get_simplified_tpmatrices
  simp only [List.map_cons, List.map_nil]
  simp only [List.foldl_cons, List.foldl_nil, List.map_cons, List.map_nil,
    List.any_cons, List.any_nil, h, if_true, Bool.or_false]

/-- A 1-d space whose only axis is non-diagonal, so `get_simplified` is
the identity on matrices over it. -/
def tpsp1 : TPSpace := ⟨1, [0], fun _ => 0, fun _ => 1⟩

/-- One-term `TPMatrix` over `tpsp1` holding a single 1x1 matrix with the
given diagonal, unit scales, no block index. -/
def mkTP1 (d : Diag) : TPMat :=
  ⟨[⟨[(0, d)], (1, 1), 1, false⟩], tpsp1, tpsp1, fun _ => 1, none, false⟩

/-- Counterexample terms: `cxa` is within the 1e-8 equality tolerance of
both `cxb1` and `cxb2`, which are not within tolerance of each other. -/
def cxb1 : TPMat := mkTP1 [1]

def cxb2 : TPMat := mkTP1 [1 + 3 / 200000000]

def cxa : TPMat := mkTP1 [1 + 3 / 400000000]

theorem gs_mkTP1 (d : Diag) : get_simplified (mkTP1 d) = mkTP1 d := by
  have hda : diagonalAxes (mkTP1 d) = [] := rfl
  rw [get_simplified, if_pos (Or.inl hda)]

theorem csr_single (x : ℚ) (hx : x ≠ 0) :
    (SparseMatrix.mk [(0, [x])] (1, 1) 1 false).csrData = [x] := by
  unfold SparseMatrix.csrData SparseMatrix.denseU SparseMatrix.lookup
  have hr : List.range 1 = [0] := rfl
  simp [hr, lookAssoc, hx]

theorem sparseEq_single (x y : ℚ) (hx : x ≠ 0) (hy : y ≠ 0) :
    SparseMatrix.sparseEq (SparseMatrix.mk [(0, [x])] (1, 1) 1 false)
      (SparseMatrix.mk [(0, [y])] (1, 1) 1 false)
      = decide (SparseMatrix.normSq [x - y] < tol8 * tol8) := by
  unfold SparseMatrix.sparseEq
  rw [csr_single x hx, csr_single y hy]
  simp [SparseMatrix.keys, SparseMatrix.normSq]

theorem tpEq_mkTP1 (x y : ℚ) (hx : x ≠ 0) (hy : y ≠ 0) :
    tpEq (mkTP1 [x]) (mkTP1 [y])
      = decide (SparseMatrix.normSq [x - y] < tol8 * tol8) := by
  unfold tpEq mkTP1
  rw [show (List.zip
      [SparseMatrix.mk [(0, [x])] (1, 1) 1 false]
      [SparseMatrix.mk [(0, [y])] (1, 1) 1 false])
    = [(SparseMatrix.mk [(0, [x])] (1, 1) 1 false,
        SparseMatrix.mk [(0, [y])] (1, 1) 1 false)] from rfl]
  simp only [List.all_cons, List.all_nil]
  rw [sparseEq_single x y hx hy]
  simp [getKeySM, SparseMatrix.keys]

theorem tpEq_cxa_cxb1 : tpEq cxa cxb1 = true := by
  unfold cxa cxb1
  rw [tpEq_mkTP1 _ _ (by norm_num) (by norm_num)]
  simp only [decide_eq_true_eq]
  norm_num [SparseMatrix.normSq, tol8]

theorem tpEq_cxa_cxb2 : tpEq cxa cxb2 = true := by
  unfold cxa cxb2
  rw [tpEq_mkTP1 _ _ (by norm_num) (by norm_num)]
  simp only [decide_eq_true_eq]
  norm_num [SparseMatrix.normSq, tol8]

theorem tpEq_cxb2_cxb1 : tpEq cxb2 cxb1 = false := by
  unfold cxb2 cxb1
  rw [tpEq_mkTP1 _ _ (by norm_num) (by norm_num)]
  simp only [decide_eq_false_iff_not]
  norm_num [SparseMatrix.normSq, tol8]

/-- C5 counterexample: with the tolerance-based equality, `cxa` equals
both `cxb1` and `cxb2` while `cxb1` and `cxb2` are unequal (the 1e-8
equality is not transitive); since the merge loop has no `break`,
`get_simplified_tpmatrices [cxb1, cxb2, cxa]` adds `cxa`'s scale into
BOTH returned representatives, so the total scale mass grows from 3 to 4
— the returned list is not one representative per structural-equality
class with the inputs' scales summed once, and an empty input list raises
(`B = [A[0]]`). -/
theorem C5_counterexample :
    tpEq cxa cxb1 = true ∧ tpEq cxa cxb2 = true ∧ tpEq cxb2 cxb1 = false ∧
    get_simplified_tpmatrices [cxb1, cxb2, cxa]
      = some [tpIadd cxb1 cxa, tpIadd cxb2 cxa] ∧
    (tpIadd cxb1 cxa).scale [] + (tpIadd cxb2 cxa).scale [] = 4 ∧
    cxb1.scale [] + cxb2.scale [] + cxa.scale [] = 3 ∧
    get_simplified_tpmatrices [] = none := by
  have h1 : get_simplified cxb1 = cxb1 := gs_mkTP1 _
  have h2 : get_simplified cxb2 = cxb2 := gs_mkTP1 _
  have h3 : get_simplified cxa = cxa := gs_mkTP1 _
  refine ⟨tpEq_cxa_cxb1, tpEq_cxa_cxb2, tpEq_cxb2_cxb1, ?_, ?_, ?_, rfl⟩
  · unfold get_simplified_tpmatrices
    simp only [List.map_cons, List.map_nil, h1, h2, h3]
    simp [List.foldl_cons, List.foldl_nil, tpEq_cxb2_cxb1, tpEq_cxa_cxb1,
      tpEq_cxa_cxb2]
  · norm_num [tpIadd, cxb1, cxb2, cxa, mkTP1]
  · norm_num [cxb1, cxb2, cxa, mkTP1]

/-- C5 witness: the pair-merge theorem applied to the concrete
structurally equal pair `cxb1`, `cxa`. -/
theorem C5_merge_structurally_equal_witness :
    get_simplified_tpmatrices [cxb1, cxa]
      = some [tpIadd (get_simplified cxb1) (get_simplified cxa)] ∧
    ∀ idx, (tpIadd (get_simplified cxb1) (get_simplified cxa)).scale idx
      = (get_simplified cxb1).scale idx + (get_simplified cxa).scale idx :=
  C5_merge_structurally_equal cxb1 cxa (by
    rw [show get_simplified cxa = cxa from gs_mkTP1 _,
        show get_simplified cxb1 = cxb1 from gs_mkTP1 _]
    exact tpEq_cxa_cxb1)

/-! Block matrices (`BlockMatrix`). -/

/-- A cell of the block grid `self.mats[i][j]`: either a plain number
(the integer 0 placeholder, or an accumulated scalar) or the list of
`TPMatrix` terms of that block. -/
inductive BMCell where
  | num (x : ℚ)
  | mats (ms : List TPMat)

/-- The block grid of a `BlockMatrix` (as built by `__iadd__`). -/
structure BlockMat where
  cells : List (List BMCell)

/-- `TPMatrix.is_bc_matrix`: true iff any per-axis matrix is a boundary
matrix. -/
def tpIsBC (t : TPMat) : Bool := t.mats.any (·.bc)

def cellHasBC : BMCell → Bool
  | .num _ => false
  | .mats ms => ms.any tpIsBC

def cellHasRegular : BMCell → Bool
  | .num _ => false
  | .mats ms => ms.any fun t => ! tpIsBC t

/-- `BlockMatrix.contains_bc_matrix`. -/
def contains_bc_matrix (bm : BlockMat) : Bool :=
  bm.cells.any fun row => row.any cellHasBC

/-- `BlockMatrix.contains_regular_matrix`. -/
def contains_regular_matrix (bm : BlockMat) : Bool :=
  bm.cells.any fun row => row.any cellHasRegular

/-- Scaled dense entries of a `SparseMatrix` (`diags(format)` with the
default `scaled=True`). -/
def denseS (m : SparseMatrix) (i j : ℕ) : ℚ := m.scale * m.denseU i j

/-- Kronecker product of two dense blocks with right factor shape
`(p, q)`. -/
def kronD (A B : ℕ → ℕ → ℚ) (p q : ℕ) : ℕ → ℕ → ℚ :=
  fun i j => A (i / p) (j / q) * B (i % p) (j % q)

/-- One `TPMatrix` term's contribution to its block of
`BlockMatrix.diags` at periodic index `it`: for one non-periodic axis
`sc * m.mats[naxes[0]].diags()`, for two
`sc * kron(m.mats[naxes[0]].diags(), m.mats[naxes[1]].diags())`, where
`sc` is the scale array evaluated at `iit` (shape-1 axes indexed at zero;
the model evaluates the scale function at `it` directly).  A simplified
all-diagonal term (`naxes = []`) makes the source index `naxes[0]` out of
range (`IndexError`): `none`. -/
def tpDiagContribution (t : TPMat) (it : MIndex) : Option (ℕ → ℕ → ℚ) :=
  match t.space.naxes with
  | [a] => some fun i j => t.scale it * denseS (t.mats.getD a default) i j
  | [a, b] =>
      some fun i j => t.scale it *
        kronD (denseS (t.mats.getD a default))
          (denseS (t.mats.getD b default))
          (t.mats.getD b default).shape.1 (t.mats.getD b default).shape.2 i j
  | _ => none

/-- One grid cell of `BlockMatrix.diags`: `None` for a number cell (a
zero block for `bmat`), otherwise the sum of the contributions of the
cell's terms (`d = sc*m...; for mj in mij[1:]: d = d + ...`). -/
def cellDiags (c : BMCell) (it : MIndex) : Option (Option (ℕ → ℕ → ℚ)) :=
  match c with
  | .num _ => some none
  | .mats ms => (ms.mapM fun t => tpDiagContribution t it).map fun fs =>
      some fun i j => (fs.map fun f => f i j).sum

/-- Failure modes of `BlockMatrix.diags`: the `RuntimeError` raised for a
mixed boundary/regular block structure, and the `IndexError` of a
degenerate all-diagonal term. -/
inductive BMErr where
  | mixed
  | degenerate
  deriving DecidableEq

/-- `BlockMatrix.diags`: raise `RuntimeError` when the grid holds both
boundary and regular matrices; otherwise assemble the grid of dense
blocks (handed to scipy's `bmat`, an external collaborator, in the
source). -/
def BlockMat.diags (bm : BlockMat) (it : MIndex) :
    Except BMErr (List (List (Option (ℕ → ℕ → ℚ)))) :=
  if contains_bc_matrix bm && contains_regular_matrix bm then .error .mixed
  else
    match bm.cells.mapM (fun row => row.mapM fun c => cellDiags c it) with
    | some g => .ok g
    | none => .error .degenerate

theorem mapM_isSome {α β : Type} (f : α → Option β) (l : List α)
    (h : ∀ x ∈ l, (f x).isSome) : ∃ ys, l.mapM f = some ys := by
  induction l with
  | nil => exact ⟨[], rfl⟩
  | cons x xs ih =>
      obtain ⟨y, hy⟩ := Option.isSome_iff_exists.mp (h x (List.mem_cons_self _ _))
      obtain ⟨ys, hys⟩ := ih fun z hz => h z (List.mem_cons_of_mem _ hz)
      refine ⟨y :: ys, ?_⟩
      rw [List.mapM_cons, hy, hys]
      rfl

/-- C7: `BlockMatrix.diags` raises the structural `RuntimeError` exactly
when the grid holds at least one boundary-lifting matrix and at least one
regular matrix; when all contained matrices are of one kind (and every
term is assemblable, i.e. has one or two non-diagonal axes), no such
error is raised and the global sparse block grid is assembled. -/
theorem C7_diags_mixed_guard (bm : BlockMat) (it : MIndex) :
    (contains_bc_matrix bm = true → contains_regular_matrix bm = true →
      bm.diags it = Except.error BMErr.mixed) ∧
    ((contains_bc_matrix bm = false ∨ contains_regular_matrix bm = false) →
      (∀ row ∈ bm.cells, ∀ c ∈ row, (cellDiags c it).isSome) →
      ∃ g, bm.diags it = Except.ok g) := by
  constructor
  · intro hbc hreg
    unfold BlockMat.diags
    rw [hbc, hreg]
    rfl
  · intro hone hsome
    have hcond : (contains_bc_matrix bm && contains_regular_matrix bm) = false := by
      rcases hone with h | h <;> rw [h] <;> simp
    obtain ⟨g, hg⟩ := mapM_isSome (fun row => row.mapM fun c => cellDiags c it)
      bm.cells (fun row hrow => by
        obtain ⟨ys, hys⟩ := mapM_isSome _ row (hsome row hrow)
        dsimp only
        rw [hys]
        rfl)
    refine ⟨g, ?_⟩
    unfold BlockMat.diags
    rw [hcond, hg]
    rfl

/-- A one-term boundary (`is_bc_matrix`) tensor product matrix. -/
def tpBCmat : TPMat :=
  ⟨[⟨[(0, [1])], (1, 1), 1, true⟩], tpsp1, tpsp1, fun _ => 1, none, false⟩

/-- A regular one-term tensor product matrix. -/
def tpRegMat : TPMat := mkTP1 [1]

/-- Grid mixing a boundary block and a regular block. -/
def bmMixed : BlockMat := ⟨[[BMCell.mats [tpBCmat], BMCell.mats [tpRegMat]]]⟩

/-- Grid holding only regular blocks. -/
def bmPure : BlockMat := ⟨[[BMCell.mats [tpRegMat]]]⟩

/-- C7 witness: the guard theorem applied to a concrete mixed grid (which
raises) and a concrete pure grid (which assembles). -/
theorem C7_diags_mixed_guard_witness :
    bmMixed.diags [] = Except.error BMErr.mixed ∧
    ∃ g, bmPure.diags [] = Except.ok g := by
  constructor
  · exact (C7_diags_mixed_guard bmMixed []).1 (by decide) (by decide)
  · refine (C7_diags_mixed_guard bmPure []).2 (Or.inl (by decide)) ?_
    intro row hrow c hc
    simp only [bmPure, List.mem_singleton] at hrow
    subst hrow
    simp only [List.mem_singleton] at hc
    subst hc
    rfl

/-! Heap model of `__add__` for the ownership claim: Python numpy arrays
are heap cells in a store; a matrix dict maps offsets to cell indices,
and two dict entries alias exactly when they hold the same cell index.
The store is append-only here because every numpy operation the source
uses (`deepcopy`, `val*scale`, `f[key]+val`, `-val`) allocates a fresh
array rather than writing into an operand's buffer. -/

abbrev Store := List Diag

/-- A `SparseMatrix` whose diagonal arrays live in a store. -/
structure HSparse where
  refs : List (ℤ × ℕ)
  shape : ℕ × ℕ
  scale : ℚ

/-- Polymorphic dict lookup (first match). -/
def lookP {β : Type} : List (ℤ × β) → ℤ → Option β
  | [], _ => none
  | p :: rest, k => if p.1 = k then some p.2 else lookP rest k

/-- Polymorphic dict assignment. -/
def setP {β : Type} : List (ℤ × β) → ℤ → β → List (ℤ × β)
  | [], k, v => [(k, v)]
  | p :: rest, k, v => if p.1 = k then (k, v) :: rest else p :: setP rest k v

def allocD (s : Store) (d : Diag) : Store × ℕ := (s ++ [d], s.length)

def readD (s : Store) (i : ℕ) : Diag := s.getD i []

/-- Allocate a fresh copy of every array reachable from `refs`, applying
`f` to the payload (`deepcopy(dict(...))` with `f = id`; the reassignment
`self[key] = val*self.scale` of `incorporate_scale` with
`f = map (· * scale)`). -/
def reallocMap (f : Diag → Diag) : Store → List (ℤ × ℕ) → Store × List (ℤ × ℕ)
  | s, [] => (s, [])
  | s, p :: rest =>
      let a := allocD s (f (readD s p.2))
      let r := reallocMap f a.1 rest
      (r.1, (p.1, a.2) :: r.2)

/-- Heap `incorporate_scale`: a no-op for a scale within 1e-8 of one,
otherwise every diagonal is reassigned to a fresh scaled array and the
scale reset to one. -/
def incorporateH (s : Store) (m : HSparse) : Store × HSparse :=
  if |m.scale - 1| < tol8 then (s, m)
  else
    let r := reallocMap (List.map (· * m.scale)) s m.refs
    (r.1, ⟨r.2, m.shape, 1⟩)

/-- The merge loop of the heap `__add__`:
`f[key] = f[key] + val` allocates a fresh sum array, while the
missing-offset branch `f[key] = val` stores the operand's array
REFERENCE, aliasing it. -/
def mergeAddH : Store → List (ℤ × ℕ) → List (ℤ × ℕ) → Store × List (ℤ × ℕ)
  | s, fr, [] => (s, fr)
  | s, fr, p :: rest =>
      match lookP fr p.1 with
      | some j =>
          let a := allocD s (List.zipWith (· + ·) (readD s j) (readD s p.2))
          mergeAddH a.1 (setP fr p.1 a.2) rest
      | none => mergeAddH s (fr ++ [(p.1, p.2)]) rest

/-- General branch of the heap `__add__` (factored out for the proofs):
deep-copy `self`'s dict, incorporate both scales (the right operand's
dict is mutated in place) and merge the right operand's items in. -/
def addHGeneral (s : Store) (A B : HSparse) : Store × HSparse × HSparse :=
  let f0 := reallocMap id s A.refs
  let f1 := incorporateH f0.1 ⟨f0.2, A.shape, A.scale⟩
  let b1 := incorporateH f1.1 B
  let mg := mergeAddH b1.1 f1.2.refs b1.2.refs
  (mg.1, ⟨mg.2, f1.2.shape, f1.2.scale⟩, b1.2)

/-- Heap `__add__`: the three near-zero-scale branches allocate fresh
dicts; otherwise the general branch runs.  Returns the new store, the
result, and the right operand as left after the call. -/
def addH (s : Store) (A B : HSparse) : Store × HSparse × HSparse :=
  if |A.scale| < tol15 ∧ |B.scale| < tol15 then
    let a := allocD s [0]
    (a.1, ⟨[(0, a.2)], A.shape, 1⟩, B)
  else if |A.scale| < tol15 then
    let r := reallocMap id s B.refs
    (r.1, ⟨r.2, B.shape, B.scale⟩, B)
  else if |B.scale| < tol15 then
    let r := reallocMap id s A.refs
    (r.1, ⟨r.2, A.shape, A.scale⟩, B)
  else addHGeneral s A B

/-- Observable (effective) diagonal of a heap matrix at an offset: the
stored array scaled by the matrix scale. -/
def effDiag (s : Store) (m : HSparse) (k : ℤ) : Option Diag :=
  (lookP m.refs k).map fun i => (readD s i).map (· * m.scale)

/-- Cell indices referenced by a heap matrix. -/
def refIdx (m : HSparse) : List ℕ := m.refs.map Prod.snd

/-- All references point into the store. -/
def wfH (s : Store) (m : HSparse) : Prop := ∀ i ∈ refIdx m, i < s.length

theorem lookP_isSome_iff {β : Type} (st : List (ℤ × β)) (k : ℤ) :
    (lookP st k).isSome ↔ k ∈ st.map Prod.fst := by
  induction st with
  | nil => simp [lookP]
  | cons p rest ih =>
      by_cases h : p.1 = k
      · simp [lookP, h]
      · simp only [lookP, if_neg h, List.map_cons, List.mem_cons]
        rw [ih]
        constructor
        · exact Or.inr
        · rintro (hc | hm)
          · exact absurd hc.symm h
          · exact hm

theorem lookP_mem {β : Type} (st : List (ℤ × β)) (k : ℤ) (v : β)
    (h : lookP st k = some v) : (k, v) ∈ st := by
  induction st with
  | nil => simp [lookP] at h
  | cons p rest ih =>
      by_cases hp : p.1 = k
      · rw [lookP, if_pos hp] at h
        obtain rfl : p.2 = v := by injection h
        rw [← hp]
        exact List.mem_cons_self p rest
      · rw [lookP, if_neg hp] at h
        exact List.mem_cons_of_mem _ (ih h)

theorem lookP_setP_self {β : Type} (st : List (ℤ × β)) (k : ℤ) (v : β) :
    lookP (setP st k v) k = some v := by
  induction st with
  | nil => simp [setP, lookP]
  | cons p rest ih =>
      unfold setP
      by_cases h : p.1 = k
      · simp [lookP, h]
      · simp [lookP, h, ih]

theorem lookP_setP_ne {β : Type} (st : List (ℤ × β)) (k k2 : ℤ) (v : β)
    (h : k2 ≠ k) : lookP (setP st k v) k2 = lookP st k2 := by
  induction st with
  | nil =>
      unfold setP
      simp only [lookP]
      rw [if_neg (fun hc : k = k2 => h hc.symm)]
  | cons p rest ih =>
      unfold setP
      by_cases hp : p.1 = k
      · rw [if_pos hp]
        simp only [lookP]
        rw [if_neg (fun hc : k = k2 => h hc.symm),
          if_neg (by rw [hp]; exact fun hc : k = k2 => h hc.symm)]
      · rw [if_neg hp]
        simp only [lookP]
        by_cases hp2 : p.1 = k2
        · rw [if_pos hp2, if_pos hp2]
        · rw [if_neg hp2, if_neg hp2, ih]

theorem setP_mem {β : Type} (st : List (ℤ × β)) (k : ℤ) (v : β)
    (q : ℤ × β) (hq : q ∈ setP st k v) : q ∈ st ∨ q = (k, v) := by
  induction st with
  | nil => simpa [setP] using hq
  | cons p rest ih =>
      unfold setP at hq
      by_cases h : p.1 = k
      · rw [if_pos h] at hq
        rcases List.mem_cons.mp hq with h2 | h2
        · exact Or.inr h2
        · exact Or.inl (List.mem_cons_of_mem _ h2)
      · rw [if_neg h] at hq
        rcases List.mem_cons.mp hq with h2 | h2
        · exact Or.inl (h2 ▸ List.mem_cons_self p rest)
        · rcases ih h2 with h3 | h3
          · exact Or.inl (List.mem_cons_of_mem _ h3)
          · exact Or.inr h3

theorem readD_ext (s t : Store) (i : ℕ) (h : i < s.length) :
    readD (s ++ t) i = readD s i := by
  unfold readD
  rw [List.getD_append _ _ _ _ h]

theorem readD_concat (s : Store) (d : Diag) : readD (s ++ [d]) s.length = d := by
  unfold readD
  rw [List.getD_eq_getElem?_getD, List.getElem?_append_right (le_refl _)]
  simp

theorem effDiag_ext (s t : Store) (m : HSparse) (k : ℤ) (hwf : wfH s m) :
    effDiag (s ++ t) m k = effDiag s m k := by
  unfold effDiag
  cases hl : lookP m.refs k with
  | none => rfl
  | some i =>
      have hi : i < s.length := hwf i (List.mem_map.mpr ⟨(k, i), lookP_mem _ _ _ hl, rfl⟩)
      simp only [Option.map_some']
      rw [readD_ext s t i hi]

theorem reallocMap_spec (f : Diag → Diag) (refs : List (ℤ × ℕ)) :
    ∀ s : Store,
    (∃ t, (reallocMap f s refs).1 = s ++ t) ∧
    (∀ q ∈ (reallocMap f s refs).2,
      s.length ≤ q.2 ∧ q.2 < (reallocMap f s refs).1.length) ∧
    (reallocMap f s refs).2.map Prod.fst = refs.map Prod.fst := by
  induction refs with
  | nil =>
      intro s
      refine ⟨⟨[], by simp [reallocMap]⟩, ?_, rfl⟩
      intro q hq
      simp [reallocMap] at hq
  | cons p rest ih =>
      intro s
      obtain ⟨⟨t, ht⟩, hbd, hkeys⟩ := ih (s ++ [f (readD s p.2)])
      have hr1 : (reallocMap f s (p :: rest)).1
          = (reallocMap f (s ++ [f (readD s p.2)]) rest).1 := rfl
      have hr2 : (reallocMap f s (p :: rest)).2
          = (p.1, s.length) :: (reallocMap f (s ++ [f (readD s p.2)]) rest).2 := rfl
      have hflen : s.length < (reallocMap f s (p :: rest)).1.length := by
        rw [hr1, ht]
        simp
      refine ⟨⟨f (readD s p.2) :: t, by rw [hr1, ht]; simp⟩, ?_, ?_⟩
      · intro q hq
        rw [hr2] at hq
        rcases List.mem_cons.mp hq with rfl | hmem
        · exact ⟨le_refl _, hflen⟩
        · have hb := hbd q hmem
          refine ⟨le_trans (by simp) hb.1, ?_⟩
          rw [hr1]
          exact hb.2
      · rw [hr2]
        simp only [List.map_cons, hkeys]

theorem reallocMap_lookP (f : Diag → Diag) (refs : List (ℤ × ℕ)) :
    ∀ (s : Store) (k : ℤ), (∀ q ∈ refs, q.2 < s.length) →
    ((lookP refs k = none → lookP (reallocMap f s refs).2 k = none) ∧
     (∀ j, lookP refs k = some j →
        ∃ i, lookP (reallocMap f s refs).2 k = some i ∧
          readD (reallocMap f s refs).1 i = f (readD s j))) := by
  induction refs with
  | nil =>
      intro s k hwf
      exact ⟨fun _ => rfl, fun j hj => by simp [lookP] at hj⟩
  | cons p rest ih =>
      intro s k hwf
      have hr1 : (reallocMap f s (p :: rest)).1
          = (reallocMap f (s ++ [f (readD s p.2)]) rest).1 := rfl
      have hr2 : (reallocMap f s (p :: rest)).2
          = (p.1, s.length) :: (reallocMap f (s ++ [f (readD s p.2)]) rest).2 := rfl
      have hwfr : ∀ q ∈ rest, q.2 < (s ++ [f (readD s p.2)]).length := by
        intro q hq
        have := hwf q (List.mem_cons_of_mem _ hq)
        simp only [List.length_append, List.length_cons, List.length_nil]
        omega
      obtain ⟨hnone, hsome⟩ := ih (s ++ [f (readD s p.2)]) k hwfr
      by_cases hp : p.1 = k
      · constructor
        · intro hl
          rw [lookP, if_pos hp] at hl
          exact absurd hl Option.noConfusion
        · intro j hj
          rw [lookP, if_pos hp] at hj
          obtain rfl : p.2 = j := by injection hj
          refine ⟨s.length, ?_, ?_⟩
          · rw [hr2, lookP, if_pos hp]
          · obtain ⟨t, ht⟩ := (reallocMap_spec f rest (s ++ [f (readD s p.2)])).1
            rw [hr1, ht, readD_ext _ _ _ (by simp), readD_concat]
      · constructor
        · intro hl
          rw [lookP, if_neg hp] at hl
          rw [hr2, lookP, if_neg hp]
          exact hnone hl
        · intro j hj
          rw [lookP, if_neg hp] at hj
          obtain ⟨i, hi, hread⟩ := hsome j hj
          refine ⟨i, by rw [hr2, lookP, if_neg hp]; exact hi, ?_⟩
          rw [hr1, hread]
          have hjlen : j < s.length :=
            hwf (k, j) (List.mem_cons_of_mem _ (lookP_mem rest k j hj))
          rw [readD_ext _ _ _ hjlen]

theorem incorporateH_ext (s : Store) (m : HSparse) :
    ∃ t, (incorporateH s m).1 = s ++ t := by
  unfold incorporateH
  by_cases h : |m.scale - 1| < tol8
  · rw [if_pos h]
    exact ⟨[], by simp⟩
  · rw [if_neg h]
    exact (reallocMap_spec _ m.refs s).1

theorem incorporateH_refs (s : Store) (m : HSparse) :
    ∀ i ∈ refIdx (incorporateH s m).2,
      i ∈ refIdx m ∨ (s.length ≤ i ∧ i < (incorporateH s m).1.length) := by
  unfold incorporateH
  by_cases h : |m.scale - 1| < tol8
  · rw [if_pos h]
    exact fun i hi => Or.inl hi
  · rw [if_neg h]
    intro i hi
    obtain ⟨q, hq, rfl⟩ := List.mem_map.mp hi
    exact Or.inr ((reallocMap_spec _ m.refs s).2.1 q hq)

theorem incorporateH_keys (s : Store) (m : HSparse) :
    (incorporateH s m).2.refs.map Prod.fst = m.refs.map Prod.fst := by
  unfold incorporateH
  by_cases h : |m.scale - 1| < tol8
  · rw [if_pos h]
  · rw [if_neg h]
    exact (reallocMap_spec _ m.refs s).2.2

theorem incorporateH_wf (s : Store) (m : HSparse) (hwf : wfH s m) :
    wfH (incorporateH s m).1 (incorporateH s m).2 := by
  intro i hi
  rcases incorporateH_refs s m i hi with h | h
  · obtain ⟨t, ht⟩ := incorporateH_ext s m
    rw [ht]
    calc i < s.length := hwf i h
      _ ≤ (s ++ t).length := by simp
  · exact h.2

theorem incorporateH_eff (s : Store) (m : HSparse) (hwf : wfH s m) (k : ℤ) :
    effDiag (incorporateH s m).1 (incorporateH s m).2 k = effDiag s m k := by
  by_cases h : |m.scale - 1| < tol8
  · unfold incorporateH
    rw [if_pos h]
  · have hwfq : ∀ q ∈ m.refs, q.2 < s.length := by
      intro q hq
      exact hwf q.2 (List.mem_map.mpr ⟨q, hq, rfl⟩)
    have heq : incorporateH s m
        = ((reallocMap (List.map (· * m.scale)) s m.refs).1,
           ⟨(reallocMap (List.map (· * m.scale)) s m.refs).2, m.shape, 1⟩) := by
      unfold incorporateH
      rw [if_neg h]
    obtain ⟨hnone, hsome⟩ :=
      reallocMap_lookP (List.map (· * m.scale)) m.refs s k hwfq
    rw [heq]
    unfold effDiag
    cases hl : lookP m.refs k with
    | none =>
        rw [hnone hl]
        rfl
    | some j =>
        obtain ⟨i, hi, hread⟩ := hsome j hl
        simp only [hi, hread, Option.map_some']
        simp [mul_one]

theorem mergeAddH_spec (bs : List (ℤ × ℕ)) :
    ∀ (s : Store) (fr : List (ℤ × ℕ)),
    (∀ p ∈ bs, (lookP fr p.1).isSome) →
    (∃ t, (mergeAddH s fr bs).1 = s ++ t) ∧
    (∀ q ∈ (mergeAddH s fr bs).2,
      q ∈ fr ∨ (s.length ≤ q.2 ∧ q.2 < (mergeAddH s fr bs).1.length)) := by
  induction bs with
  | nil =>
      intro s fr hsub
      exact ⟨⟨[], by simp [mergeAddH]⟩, fun q hq => Or.inl hq⟩
  | cons p rest ih =>
      intro s fr hsub
      obtain ⟨j, hj⟩ := Option.isSome_iff_exists.mp
        (hsub p (List.mem_cons_self _ _))
      have hstep : mergeAddH s fr (p :: rest)
          = mergeAddH (s ++ [List.zipWith (· + ·) (readD s j) (readD s p.2)])
              (setP fr p.1 s.length) rest := by
        simp only [mergeAddH, hj]
        rfl
      have hsubr : ∀ p2 ∈ rest, (lookP (setP fr p.1 s.length) p2.1).isSome := by
        intro p2 hp2
        by_cases he : p2.1 = p.1
        · rw [he, lookP_setP_self]
          rfl
        · rw [lookP_setP_ne fr p.1 p2.1 s.length he]
          exact hsub p2 (List.mem_cons_of_mem _ hp2)
      obtain ⟨⟨t, ht⟩, hmem⟩ :=
        ih (s ++ [List.zipWith (· + ·) (readD s j) (readD s p.2)])
          (setP fr p.1 s.length) hsubr
      rw [hstep]
      constructor
      · exact ⟨List.zipWith (· + ·) (readD s j) (readD s p.2) :: t,
          by rw [ht]; simp⟩
      · intro q hq
        have hlen : s.length <
            (mergeAddH (s ++ [List.zipWith (· + ·) (readD s j) (readD s p.2)])
              (setP fr p.1 s.length) rest).1.length := by
          rw [ht]
          simp
        rcases hmem q hq with hin | hfresh
        · rcases setP_mem fr p.1 s.length q hin with hin2 | rfl
          · exact Or.inl hin2
          · exact Or.inr ⟨le_refl _, hlen⟩
        · refine Or.inr ⟨le_trans (by simp) hfresh.1, hfresh.2⟩

theorem addHGeneral_spec (s : Store) (A B : HSparse)
    (hwa : wfH s A) (hwb : wfH s B)
    (hsub : ∀ k : ℤ, k ∈ B.refs.map Prod.fst → k ∈ A.refs.map Prod.fst) :
    (∀ i ∈ refIdx (addHGeneral s A B).2.1,
      i ∉ refIdx A ∧ i ∉ refIdx (addHGeneral s A B).2.2) ∧
    (∀ k, effDiag (addHGeneral s A B).1 (addHGeneral s A B).2.2 k
      = effDiag s B k) ∧
    (∀ k, effDiag (addHGeneral s A B).1 A k = effDiag s A k) := by
  set R0 := reallocMap id s A.refs with hR0def
  set F1 := incorporateH R0.1 ⟨R0.2, A.shape, A.scale⟩ with hF1def
  set B1 := incorporateH F1.1 B with hB1def
  set MG := mergeAddH B1.1 F1.2.refs B1.2.refs with hMGdef
  have ho1 : (addHGeneral s A B).1 = MG.1 := rfl
  have ho2 : (addHGeneral s A B).2.1 = ⟨MG.2, F1.2.shape, F1.2.scale⟩ := rfl
  have ho3 : (addHGeneral s A B).2.2 = B1.2 := rfl
  obtain ⟨⟨t1, ht1⟩, hbd0, hk0⟩ := reallocMap_spec id A.refs s
  obtain ⟨t2, ht2⟩ := incorporateH_ext R0.1 ⟨R0.2, A.shape, A.scale⟩
  obtain ⟨t3, ht3⟩ := incorporateH_ext F1.1 B
  have hlen1 : s.length ≤ R0.1.length := by rw [ht1]; simp
  have hlen2 : R0.1.length ≤ F1.1.length := by rw [ht2]; simp
  have hlen3 : F1.1.length ≤ B1.1.length := by rw [ht3]; simp
  have hkeysF1 : F1.2.refs.map Prod.fst = A.refs.map Prod.fst := by
    rw [incorporateH_keys R0.1 ⟨R0.2, A.shape, A.scale⟩]
    exact hk0
  have hkeysB1 : B1.2.refs.map Prod.fst = B.refs.map Prod.fst :=
    incorporateH_keys F1.1 B
  have hsubM : ∀ p ∈ B1.2.refs, (lookP F1.2.refs p.1).isSome := by
    intro p hp
    rw [lookP_isSome_iff, hkeysF1]
    apply hsub
    rw [← hkeysB1]
    exact List.mem_map.mpr ⟨p, hp, rfl⟩
  obtain ⟨⟨t4, ht4⟩, hmemMG⟩ := mergeAddH_spec B1.2.refs B1.1 F1.2.refs hsubM
  have hF1bounds : ∀ i ∈ refIdx F1.2, s.length ≤ i ∧ i < F1.1.length := by
    intro i hi
    rcases incorporateH_refs R0.1 ⟨R0.2, A.shape, A.scale⟩ i hi with h | h
    · obtain ⟨q, hq, rfl⟩ := List.mem_map.mp h
      have hb := hbd0 q hq
      exact ⟨hb.1, lt_of_lt_of_le hb.2 hlen2⟩
    · exact ⟨le_trans hlen1 h.1, h.2⟩
  have hB1bounds : ∀ i ∈ refIdx B1.2,
      i < s.length ∨ (F1.1.length ≤ i ∧ i < B1.1.length) := by
    intro i hi
    rcases incorporateH_refs F1.1 B i hi with h | h
    · exact Or.inl (hwb i h)
    · exact Or.inr h
  have hwfBF1 : wfH F1.1 B := fun i hi =>
    lt_of_lt_of_le (hwb i hi) (le_trans hlen1 hlen2)
  refine ⟨?_, ?_, ?_⟩
  · intro i hi
    rw [ho2] at hi
    obtain ⟨q, hq, rfl⟩ := List.mem_map.mp hi
    have hq2 := hmemMG q hq
    constructor
    · intro hcA
      have hA := hwa q.2 hcA
      rcases hq2 with hin | hfresh
      · have := (hF1bounds q.2 (List.mem_map.mpr ⟨q, hin, rfl⟩)).1
        omega
      · have hge : s.length ≤ q.2 :=
          le_trans (le_trans hlen1 (le_trans hlen2 hlen3)) hfresh.1
        omega
    · rw [ho3]
      intro hcB
      rcases hB1bounds q.2 hcB with hlt | hrange
      · rcases hq2 with hin | hfresh
        · have := (hF1bounds q.2 (List.mem_map.mpr ⟨q, hin, rfl⟩)).1
          omega
        · have hge : s.length ≤ q.2 :=
            le_trans (le_trans hlen1 (le_trans hlen2 hlen3)) hfresh.1
          omega
      · rcases hq2 with hin | hfresh
        · have := (hF1bounds q.2 (List.mem_map.mpr ⟨q, hin, rfl⟩)).2
          omega
        · have h1 := hfresh.1
          have h2 := hrange.2
          omega
  · intro k
    rw [ho1, ho3]
    have hwfB1 : wfH B1.1 B1.2 := incorporateH_wf F1.1 B hwfBF1
    have e1 : effDiag MG.1 B1.2 k = effDiag B1.1 B1.2 k := by
      rw [ht4]
      exact effDiag_ext B1.1 t4 B1.2 k hwfB1
    have e2 : effDiag B1.1 B1.2 k = effDiag F1.1 B k :=
      incorporateH_eff F1.1 B hwfBF1 k
    have e3 : effDiag F1.1 B k = effDiag s B k := by
      have hF11 : F1.1 = s ++ (t1 ++ t2) := by
        rw [ht2, ht1, List.append_assoc]
      rw [hF11]
      exact effDiag_ext s _ B k hwb
    rw [e1, e2, e3]
  · intro k
    rw [ho1]
    have hMG1 : MG.1 = s ++ (t1 ++ (t2 ++ (t3 ++ t4))) := by
      rw [ht4, ht3, ht2, ht1]
      simp [List.append_assoc]
    rw [hMG1]
    exact effDiag_ext s _ A k hwa

/-- C9: heap-level ownership for `__add__`.  Amended: provided every
diagonal offset of `B` is also an offset of `A`, the result `C = A + B`
owns its diagonal data — no store cell referenced by `C` is referenced by
`A` or by the post-call right operand — and the combination leaves the
effective matrix (scale times stored diagonals) of each operand
unchanged.  Without the offset condition the ownership part fails: the
missing-offset branch `f[key] = val` stores the right operand's array
reference. -/
theorem C9_add_ownership (s : Store) (A B : HSparse)
    (hwa : wfH s A) (hwb : wfH s B)
    (hsub : ∀ k : ℤ, k ∈ B.refs.map Prod.fst → k ∈ A.refs.map Prod.fst) :
    (∀ i ∈ refIdx (addH s A B).2.1,
      i ∉ refIdx A ∧ i ∉ refIdx (addH s A B).2.2) ∧
    (∀ k, effDiag (addH s A B).1 (addH s A B).2.2 k = effDiag s B k) ∧
    (∀ k, effDiag (addH s A B).1 A k = effDiag s A k) := by
  by_cases h1 : |A.scale| < tol15 ∧ |B.scale| < tol15
  · have heq : addH s A B = (s ++ [[0]], ⟨[(0, s.length)], A.shape, 1⟩, B) := by
      unfold addH
      rw [if_pos h1]
      rfl
    rw [heq]
    refine ⟨?_, ?_, ?_⟩
    · intro i hi
      have hi' : i = s.length := by simpa [refIdx] using hi
      subst hi'
      exact ⟨fun hc => absurd (hwa _ hc) (lt_irrefl _),
             fun hc => absurd (hwb _ hc) (lt_irrefl _)⟩
    · intro k
      exact effDiag_ext s [[0]] B k hwb
    · intro k
      exact effDiag_ext s [[0]] A k hwa
  · by_cases h2 : |A.scale| < tol15
    · have heq : addH s A B =
          ((reallocMap id s B.refs).1,
            ⟨(reallocMap id s B.refs).2, B.shape, B.scale⟩, B) := by
        unfold addH
        rw [if_neg h1, if_pos h2]
      rw [heq]
      obtain ⟨⟨t, ht⟩, hbd, -⟩ := reallocMap_spec id B.refs s
      refine ⟨?_, ?_, ?_⟩
      · intro i hi
        obtain ⟨q, hq, rfl⟩ := List.mem_map.mp hi
        have hb := hbd q hq
        exact ⟨fun hc => absurd (hwa _ hc) (not_lt.mpr hb.1),
               fun hc => absurd (hwb _ hc) (not_lt.mpr hb.1)⟩
      · intro k
        rw [ht]
        exact effDiag_ext s t B k hwb
      · intro k
        rw [ht]
        exact effDiag_ext s t A k hwa
    · by_cases h3 : |B.scale| < tol15
      · have heq : addH s A B =
            ((reallocMap id s A.refs).1,
              ⟨(reallocMap id s A.refs).2, A.shape, A.scale⟩, B) := by
          unfold addH
          rw [if_neg h1, if_neg h2, if_pos h3]
        rw [heq]
        obtain ⟨⟨t, ht⟩, hbd, -⟩ := reallocMap_spec id A.refs s
        refine ⟨?_, ?_, ?_⟩
        · intro i hi
          obtain ⟨q, hq, rfl⟩ := List.mem_map.mp hi
          have hb := hbd q hq
          exact ⟨fun hc => absurd (hwa _ hc) (not_lt.mpr hb.1),
                 fun hc => absurd (hwb _ hc) (not_lt.mpr hb.1)⟩
        · intro k
          rw [ht]
          exact effDiag_ext s t B k hwb
        · intro k
          rw [ht]
          exact effDiag_ext s t A k hwa
      · have heq : addH s A B = addHGeneral s A B := by
          unfold addH
          rw [if_neg h1, if_neg h2, if_neg h3]
        rw [heq]
        exact addHGeneral_spec s A B hwa hwb hsub

theorem incorporateH_noop (st : Store) (m : HSparse) (h : |m.scale - 1| < tol8) :
    incorporateH st m = (st, m) := by
  unfold incorporateH
  rw [if_pos h]

/-- Store for the aliasing counterexample: cell 0 holds `A`'s diagonal,
cell 1 holds `B`'s. -/
def cs9 : Store := [[1], [2]]

/-- Left operand: a single diagonal at offset 0, unit scale. -/
def cA9 : HSparse := ⟨[(0, 0)], (2, 2), 1⟩

/-- Right operand: a single diagonal at offset 1 (absent from `cA9`). -/
def cB9 : HSparse := ⟨[(1, 1)], (2, 2), 1⟩

/-- C9, refutation of the ownership part as claimed: adding `cA9` and
`cB9` (offset 1 only in `cB9`) yields a result that references store
cell 1 — the very cell `cB9`'s diagonal lives in — so `C = A + B` aliases
an array of the right operand rather than owning a copy. -/
theorem C9_counterexample :
    (1 : ℕ) ∈ refIdx (addH cs9 cA9 cB9).2.1 ∧
    (1 : ℕ) ∈ refIdx (addH cs9 cA9 cB9).2.2 := by
  have h1 : ¬ (|cA9.scale| < tol15 ∧ |cB9.scale| < tol15) := by
    norm_num [cA9, cB9, tol15]
  have h2 : ¬ |cA9.scale| < tol15 := by
    norm_num [cA9, tol15]
  have h3 : ¬ |cB9.scale| < tol15 := by
    norm_num [cB9, tol15]
  have hgen : addH cs9 cA9 cB9 = addHGeneral cs9 cA9 cB9 := by
    unfold addH
    rw [if_neg h1, if_neg h2, if_neg h3]
  have hf0 : reallocMap id cs9 cA9.refs = ([[1], [2], [1]], [(0, 2)]) := rfl
  have hA1 : |(HSparse.mk [(0, 2)] cA9.shape cA9.scale).scale - 1| < tol8 := by
    norm_num [cA9, tol8]
  have hB1 : |cB9.scale - 1| < tol8 := by
    norm_num [cB9, tol8]
  have hbody : addHGeneral cs9 cA9 cB9 =
      ([[1], [2], [1]], ⟨[(0, 2), (1, 1)], cA9.shape, cA9.scale⟩, cB9) := by
    unfold addHGeneral
    dsimp only
    rw [hf0]
    dsimp only
    rw [incorporateH_noop [[1], [2], [1]] ⟨[(0, 2)], cA9.shape, cA9.scale⟩ hA1]
    dsimp only
    rw [incorporateH_noop [[1], [2], [1]] cB9 hB1]
    dsimp only
    have hmg : mergeAddH [[1], [2], [1]] [(0, 2)] cB9.refs
        = ([[1], [2], [1]], [(0, 2), (1, 1)]) := rfl
    rw [hmg]
  rw [hgen, hbody]
  exact ⟨by decide, by decide⟩

/-- Witness store/operands for the amended C9: every offset of `wB9`
(just 1) is also an offset of `wA9`. -/
def ws9 : Store := [[1], [2], [3]]

def wA9 : HSparse := ⟨[(0, 0), (1, 1)], (2, 2), 1⟩

def wB9 : HSparse := ⟨[(1, 2)], (2, 2), 1⟩

theorem C9_add_ownership_witness :
    (∀ i ∈ refIdx (addH ws9 wA9 wB9).2.1,
      i ∉ refIdx wA9 ∧ i ∉ refIdx (addH ws9 wA9 wB9).2.2) ∧
    (∀ k, effDiag (addH ws9 wA9 wB9).1 (addH ws9 wA9 wB9).2.2 k
      = effDiag ws9 wB9 k) ∧
    (∀ k, effDiag (addH ws9 wA9 wB9).1 wA9 k = effDiag ws9 wA9 k) :=
  C9_add_ownership ws9 wA9 wB9
    (by unfold wfH refIdx ws9 wA9; decide)
    (by unfold wfH refIdx ws9 wB9; decide)
    (by unfold wA9 wB9; decide)
